import Mathlib

/-!
Verification development for the planet renderer (`src/main.rs`).

The Rust program is shallowly embedded: pure functions become Lean
functions, stateful fragments become explicit state passing, `f32`
arithmetic is modelled by exact arithmetic over `ℝ`, `i32` by `ℤ`,
`usize` by `ℕ`, `SystemTime` by `ℕ`, and fallible operations by
`Option`.  Line numbers in the comments refer to `src/main.rs`.
-/

namespace Planet

/-! ## Shader hot reload (`src/main.rs` lines 57-141) -/

/-- Abstract file-system/compiler environment seen by the shader code.
`mtime p` models `fs::metadata(p)` followed by `.modified()` (`none` models
an error); `compileAt v f` models `Shader::new`'s reading of the two source
files at paths `v`, `f` followed by `Program::new` (`none` models a read or
compile error, `some h` a fresh program handle).  Using one fixed
environment for two successive calls models the file system not changing
between the calls. -/
structure FsEnv where
  mtime : String → Option ℕ
  compileAt : String → String → Option ℕ

/-- `get_shader_change_time` (lines 57-64): fetch both files' modification
times and return their `max`; any metadata error propagates. -/
def getShaderChangeTime (env : FsEnv) (fragPath vertPath : String) : Option ℕ :=
  match env.mtime fragPath, env.mtime vertPath with
  | some tv, some tf => some (max tv tf)
  | _, _ => none

/-- `Shader` (lines 66-71): program handle, the timestamp it was built
from, and the two source paths. -/
structure Shader where
  program : ℕ
  programTime : ℕ
  fragPath : String
  vertPath : String
deriving DecidableEq

/-- `Shader::new` (lines 98-121): read and compile both sources; on
success the new unit stores the passed `program_time` and the same
paths. -/
def shaderNew (env : FsEnv) (programTime : ℕ) (fragPath vertPath : String) :
    Option Shader :=
  (env.compileAt vertPath fragPath).map fun p =>
    { program := p, programTime := programTime,
      fragPath := fragPath, vertPath := vertPath }

/-- `Shader::reload_if_changed` (lines 123-141).  The `Bool` records
whether this check performed a recompilation (the branch calling
`Shader::new` ran, i.e. the sources were read and compiled).  On a failed
recompilation the unit is left untouched (`Err` only prints, line 136);
on success the whole unit is replaced at once (`*self = program`,
line 133). -/
def reloadIfChanged (env : FsEnv) (s : Shader) : Shader × Bool :=
  match getShaderChangeTime env s.fragPath s.vertPath with
  | none => (s, false)
  | some newTime =>
    if s.programTime < newTime then
      match shaderNew env newTime s.fragPath s.vertPath with
      | some s' => (s', true)
      | none => (s, true)
    else (s, false)

/-! ## UI update (`update_ui`, lines 327-348) -/

/-- The fields of `State` that `update_ui` reads or writes. -/
structure UiState where
  averageFrameTime : ℝ
  sunAngle : ℝ
  sunPos : ℝ × ℝ × ℝ

/-- `f32::to_radians`. -/
noncomputable def toRadians (deg : ℝ) : ℝ := deg * (Real.pi / 180)

/-- `update_ui` (lines 327-348).  The window always renders the FPS line
`(1.0 / average_frame_time, average_frame_time * 1000)` — the division is
unconditional, there is no zero guard (line 333) — and, when the sun-angle
slider reports a change, recomputes
`sun_pos = (10000*sin a, 0, 10000*(-cos a))` from the angle in radians
(lines 341-343).  Returns the updated state and the pair rendered in the
FPS line; a skipped readout ("no reading yet") would be `none`, but the
code always produces `some`. -/
noncomputable def updateUi (sliderChanged : Bool) (p : UiState) :
    UiState × Option (ℝ × ℝ) :=
  let fpsLine := some (1 / p.averageFrameTime, p.averageFrameTime * 1000)
  let p' :=
    if sliderChanged then
      let x := Real.cos (toRadians p.sunAngle)
      let y := Real.sin (toRadians p.sunAngle)
      { p with sunPos := (10000 * y, 0, 10000 * (-x)) }
    else p
  (p', fpsLine)

/-! ## Mouse state and the cursor-move event (lines 40-55 and 468-475) -/

/-- `MouseState` (lines 40-45). -/
structure MouseState where
  pos : ℤ × ℤ
  pressed : Bool × Bool × Bool
  wheel : ℝ

/-- Handling of `WindowEvent::CursorMoved` (lines 468-475).  `x`, `y` are
the event's logical coordinates after the source's `as i32` truncation. -/
def handleCursorMoved (m : MouseState) (x y : ℤ) : MouseState :=
  if x ≠ 0 ∧ y ≠ 0 then { m with pos := (x, y) } else m

/-! ## Composite-pass command stream (lines 698-752) -/

/-- `glium::draw_parameters::BackfaceCullingMode` (default: culling
disabled). -/
inductive CullMode
  | disabled
  | clockwise
  | counterClockwise
deriving DecidableEq

/-- Blending: `Default` (no blending) or `Blend::alpha_blending()`. -/
inductive BlendMode
  | noBlend
  | alpha
deriving DecidableEq

/-- `glium::DepthTest` as used here (default: `Overwrite`). -/
inductive DepthTestMode
  | overwrite
  | ifLess
deriving DecidableEq

/-- The draw-parameter fields the program sets. -/
structure DrawParams where
  depthTest : DepthTestMode
  depthWrite : Bool
  cull : CullMode
  blend : BlendMode
deriving DecidableEq

/-- `DrawParameters::default()`: depth `Overwrite` without write, culling
disabled, no blending. -/
def defaultParams : DrawParams :=
  { depthTest := .overwrite, depthWrite := false,
    cull := .disabled, blend := .noBlend }

/-- `planet_params` (lines 657-665). -/
def planetParams : DrawParams :=
  { defaultParams with
    depthTest := .ifLess, depthWrite := true, cull := .clockwise }

/-- `cloud_params_back` (lines 667-676). -/
def cloudParamsBack : DrawParams :=
  { defaultParams with
    depthTest := .ifLess, depthWrite := true,
    cull := .counterClockwise, blend := .alpha }

/-- `cloud_params_forward` (lines 678-687). -/
def cloudParamsForward : DrawParams :=
  { defaultParams with
    depthTest := .ifLess, depthWrite := true,
    cull := .clockwise, blend := .alpha }

/-- `star_params` (lines 689-696): only the depth field is set. -/
def starParams : DrawParams :=
  { defaultParams with
    depthTest := .ifLess, depthWrite := true }

/-- Which vertex buffer a draw call uses. -/
inductive BufferSel
  | planetMesh
  | starPoints
deriving DecidableEq

/-- Indexed triangle list versus `NoIndices(PrimitiveType::Points)`. -/
inductive IndexSel
  | trianglesIndexed
  | pointsUnindexed
deriving DecidableEq

/-- Which shader unit a draw call uses. -/
inductive ProgramSel
  | planet
  | planetShadowmap
  | cloud
  | cloudShadowmap
  | star
deriving DecidableEq

/-- One command issued to the visible framebuffer during the composite
pass. -/
inductive RenderCmd
  | clearColor
  | clearDepth
  | draw (buf : BufferSel) (idx : IndexSel) (prog : ProgramSel)
      (params : DrawParams)
  | blitShadowmap
  | uiOverlay
deriving DecidableEq

/-- The composite pass (lines 698-752), commands in source order: clear
color and depth; draw the planet mesh (line 702); draw the starfield
(line 710); draw the cloud mesh with counter-clockwise (line 718) then
clockwise (line 726) culling; blit the shadow target (line 734); render
the UI overlay (line 751). -/
def compositePass : List RenderCmd :=
  [ .clearColor, .clearDepth,
    .draw .planetMesh .trianglesIndexed .planet planetParams,
    .draw .starPoints .pointsUnindexed .star starParams,
    .draw .planetMesh .trianglesIndexed .cloud cloudParamsBack,
    .draw .planetMesh .trianglesIndexed .cloud cloudParamsForward,
    .blitShadowmap,
    .uiOverlay ]

/-- The command order asserted by claim C6 (from the spec's words, for
comparison with `compositePass`): starfield first, then the planet. -/
def claimedCompositePass : List RenderCmd :=
  [ .clearColor, .clearDepth,
    .draw .starPoints .pointsUnindexed .star starParams,
    .draw .planetMesh .trianglesIndexed .planet planetParams,
    .draw .planetMesh .trianglesIndexed .cloud cloudParamsBack,
    .draw .planetMesh .trianglesIndexed .cloud cloudParamsForward,
    .blitShadowmap,
    .uiOverlay ]

/-! ## Sphere tessellator (`create_sphere`, lines 144-228) -/

/-- `Vertex` (lines 21-27): position, normal, texture coordinate.  The
`f32` components are modelled over `ℝ`. -/
structure Vertex where
  pos : ℝ × ℝ × ℝ
  normal : ℝ × ℝ × ℝ
  tex : ℝ × ℝ

/-- `#[derive(Default)]` for `Vertex`: all components zero. -/
def Vertex.zero : Vertex := ⟨(0, 0, 0), (0, 0, 0), (0, 0)⟩

instance : Inhabited Vertex := ⟨Vertex.zero⟩

/-- `Triangle` (lines 29-32): three `i32` indices into the vertex list. -/
structure Triangle where
  ind0 : ℤ
  ind1 : ℤ
  ind2 : ℤ
deriving DecidableEq

/-- `#[derive(Default)]` for `Triangle`. -/
def Triangle.zero : Triangle := ⟨0, 0, 0⟩

instance : Inhabited Triangle := ⟨Triangle.zero⟩

/-- The clamped vertical segment count: `if segments < 2 { 2 } else
{ segments }` (line 145). -/
def vsegsOf (segments : ℕ) : ℕ := if segments < 2 then 2 else segments

/-- `hsegs = vsegs * 2` (line 146). -/
def hsegsOf (segments : ℕ) : ℕ := vsegsOf segments * 2

/-- `nverts = 1 + (vsegs - 1) * (hsegs + 1) + 1` (line 147; also `NVERTS`
in `State::new`, line 259). -/
def nvertsOf (segments : ℕ) : ℕ :=
  1 + (vsegsOf segments - 1) * (hsegsOf segments + 1) + 1

/-- `NTRIS = hsegs + (vsegs - 2) * hsegs * 2 + hsegs` (`State::new`,
line 260): the number of triangle slots the caller allocates, all of which
`create_sphere` writes. -/
def ntrisOf (segments : ℕ) : ℕ :=
  hsegsOf segments + (vsegsOf segments - 2) * hsegsOf segments * 2 +
    hsegsOf segments

/-- The north-pole vertex (lines 150-157). -/
def topVertex (radius : ℝ) : Vertex :=
  { pos := (0, 0, radius), normal := (0, 0, 1), tex := (0.5, 1) }

/-- The south-pole vertex (lines 160-168). -/
def bottomVertex (radius : ℝ) : Vertex :=
  { pos := (0, 0, -radius), normal := (0, 0, -1), tex := (0.5, 0) }

/-- The ring vertex written at ring `j`, column `i` (lines 171-186):
`theta = (j+1)/vsegs * π`, `z = cos theta`, `r = sin theta`,
`phi = i/hsegs * 2π`, `x = r cos phi`, `y = r sin phi`; position
`radius * (x, y, z)`, normal `(x, y, z)`, texture
`(i/hsegs, 1 - (j+1)/vsegs)`. -/
noncomputable def ringVertex (radius : ℝ) (vsegs hsegs j i : ℕ) : Vertex :=
  let theta : ℝ := ((j : ℝ) + 1) / (vsegs : ℝ) * Real.pi
  let z := Real.cos theta
  let r := Real.sin theta
  let phi : ℝ := (i : ℝ) / (hsegs : ℝ) * 2 * Real.pi
  let x := r * Real.cos phi
  let y := r * Real.sin phi
  { pos := (radius * x, radius * y, radius * z),
    normal := (x, y, z),
    tex := ((i : ℝ) / (hsegs : ℝ), 1 - ((j : ℝ) + 1) / (vsegs : ℝ)) }

/-- The vertex half of `create_sphere` (lines 144-188), with the locals
`vsegs`, `hsegs`, `nverts` of lines 145-147 as explicit parameters.  The
caller (`State::new`, line 262) passes a slice of `nverts` default
vertices; the function writes slot 0 (north pole), slot `nverts - 1`
(south pole), and, for each ring `j < vsegs - 1`, the slots
`1 + j*(hsegs+1) + i` for `i < hsegs` — the loop on line 174 runs `i` over
`0..hsegs`, so the trailing slot `1 + j*(hsegs+1) + hsegs` of each ring is
never written and keeps its `Default` value. -/
noncomputable def sphereVerticesCore (radius : ℝ) (vsegs hsegs nverts : ℕ) :
    List Vertex :=
  let vs0 := List.replicate nverts Vertex.zero
  let vs1 := vs0.set 0 (topVertex radius)
  let vs2 := vs1.set (nverts - 1) (bottomVertex radius)
  (List.range (vsegs - 1)).foldl
    (fun vs j =>
      (List.range hsegs).foldl
        (fun vs i => vs.set (1 + j * (hsegs + 1) + i)
          (ringVertex radius vsegs hsegs j i)) vs)
    vs2

/-- The vertex list produced by `create_sphere` for a given `segments`
argument: lines 145-147 compute `vsegs` (clamped), `hsegs` and `nverts`,
the rest of the function uses only those.  `nverts` is an `i32` in the
source (line 147) and an exact natural here, so this embedding is
faithful only while `nverts < 2^31`: for larger `segments` the source's
cast wraps negative and `(nverts as usize) - 1` (line 160) makes the
bottom-pole write (line 161) panic, whereas this model stays total.
Theorems quantifying over `segments` therefore carry the bound
`nvertsOf segments < 2^31`. -/
noncomputable def sphereVertices (radius : ℝ) (segments : ℕ) : List Vertex :=
  let vsegs := if segments < 2 then 2 else segments
  let hsegs := vsegs * 2
  let nverts := 1 + (vsegs - 1) * (hsegs + 1) + 1
  sphereVerticesCore radius vsegs hsegs nverts

/-- The index half of `create_sphere` (lines 190-227), with the locals of
lines 145-147 and the caller's allocation size `ntris` (`NTRIS`,
`State::new` line 260) as explicit parameters.  It writes into the
caller's slice of `ntris` default triangles: the top cap at slots
`0..hsegs` (lines 191-195), the middle bands at slots
`hsegs + 2*(j*hsegs + i)` and the following slot (lines 197-219, with the
wrap-around branch at `i = hsegs - 1`), and the bottom cap at slots
`hsegs + 2*(vsegs-2)*hsegs + i` (lines 222-227).  Indices are `i32`
values, modelled as `ℤ`. -/
def sphereTrianglesCore (vsegs hsegs : ℕ) (nverts : ℤ) (ntris : ℕ) :
    List Triangle :=
  let ts0 := List.replicate ntris Triangle.zero
  let ts1 := (List.range hsegs).foldl
    (fun ts i => ts.set i ⟨0, 1 + (i : ℤ), 2 + (i : ℤ)⟩) ts0
  let ts2 := (List.range (vsegs - 2)).foldl
    (fun ts j =>
      (List.range hsegs).foldl
        (fun ts i =>
          let base := hsegs + 2 * (j * hsegs + i)
          let i0 : ℤ := 1 + (j : ℤ) * ((hsegs : ℤ) + 1) + (i : ℤ)
          if i = hsegs - 1 then
            let i00 : ℤ := (j : ℤ) * ((hsegs : ℤ) + 1)
            (ts.set base ⟨i0, i0 + (hsegs : ℤ) + 1, i00 + 1⟩).set (base + 1)
              ⟨i00 + 1, i0 + (hsegs : ℤ) + 1, i00 + (hsegs : ℤ) + 2⟩
          else
            (ts.set base ⟨i0, i0 + (hsegs : ℤ) + 1, i0 + 1⟩).set (base + 1)
              ⟨i0 + 1, i0 + (hsegs : ℤ) + 1, i0 + (hsegs : ℤ) + 2⟩)
        ts)
    ts1
  let capBase := hsegs + 2 * (vsegs - 2) * hsegs
  (List.range hsegs).foldl
    (fun ts i => ts.set (capBase + i)
      ⟨nverts - 1, nverts - 2 - (i : ℤ), nverts - 3 - (i : ℤ)⟩)
    ts2

/-- The triangle list produced by `create_sphere` for a given `segments`
argument (`nverts` is cast to `i32` on line 147; the allocation size is
`NTRIS` from `State::new` line 260).  The `i32` index computations of
lines 147, 200 and 224-226 are modelled as exact integers; every index
written lies in `[0, nverts)`, so the model agrees with the source's
wrapping arithmetic exactly when `nverts < 2^31` (beyond that the source
panics at line 161 before producing any triangles).  Theorems
quantifying over `segments` therefore carry the bound
`nvertsOf segments < 2^31`. -/
def sphereTriangles (segments : ℕ) : List Triangle :=
  let vsegs := if segments < 2 then 2 else segments
  let hsegs := vsegs * 2
  let nverts : ℤ := ((1 + (vsegs - 1) * (hsegs + 1) + 1 : ℕ) : ℤ)
  let ntris := hsegs + (vsegs - 2) * hsegs * 2 + hsegs
  sphereTrianglesCore vsegs hsegs nverts ntris

/-- `create_sphere` as called by `State::new` (lines 256-281): the filled
vertex list and triangle list. -/
noncomputable def createSphere (radius : ℝ) (segments : ℕ) :
    List Vertex × List Triangle :=
  (sphereVertices radius segments, sphereTriangles segments)

/-! ## Mesh topology -/

/-- The three directed edges of a triangle. -/
def Triangle.edges (t : Triangle) : List (ℤ × ℤ) :=
  [(t.ind0, t.ind1), (t.ind1, t.ind2), (t.ind2, t.ind0)]

/-- All directed edges of a triangle list, one occurrence per triangle
edge. -/
def edgeList (ts : List Triangle) : List (ℤ × ℤ) :=
  ts.flatMap Triangle.edges

/-- A triangle with three pairwise distinct vertex indices. -/
def Triangle.nondeg (t : Triangle) : Prop :=
  t.ind0 ≠ t.ind1 ∧ t.ind1 ≠ t.ind2 ∧ t.ind2 ≠ t.ind0

instance (t : Triangle) : Decidable t.nondeg := by
  unfold Triangle.nondeg; infer_instance

/-- Closed 2-manifold, as claim C1 states it: every triangle is
nondegenerate, and every directed edge `(a, b)` of the triangle list
occurs in exactly one triangle while its reverse `(b, a)` also occurs in
exactly one triangle.  (For nondegenerate triangles an edge and its
reverse cannot share a triangle, so the reverse lies in exactly one
*other* triangle; `count = 1` for every edge rules out boundary edges —
whose reverse would have count 0 — and non-manifold edges.) -/
def isClosedMesh (ts : List Triangle) : Prop :=
  (∀ t ∈ ts, t.nondeg) ∧
  ∀ e ∈ edgeList ts,
    (edgeList ts).count e = 1 ∧ (edgeList ts).count (e.2, e.1) = 1

instance (ts : List Triangle) : Decidable (isClosedMesh ts) := by
  unfold isClosedMesh; infer_instance

/-- The seam identification of the amended claim C1: each ring stores
`hsegs + 1` slots, and the trailing slot `1 + j*(hsegs+1) + hsegs` (the
duplicated seam column `i = hsegs`) denotes the same geometric point as
the ring's first column `1 + j*(hsegs+1)`.  `canonIndex` maps every seam
slot to its column-0 slot and leaves all other indices (poles included)
unchanged. -/
def canonIndex (hsegs : ℕ) (x : ℤ) : ℤ :=
  if 1 ≤ x ∧ (x - 1) % ((hsegs : ℤ) + 1) = (hsegs : ℤ) then x - (hsegs : ℤ)
  else x

/-- `canonIndex` applied to all three corners of a triangle. -/
def canonTriangle (hsegs : ℕ) (t : Triangle) : Triangle :=
  ⟨canonIndex hsegs t.ind0, canonIndex hsegs t.ind1, canonIndex hsegs t.ind2⟩

/-! ## Lengths of the tessellator output -/

/-- A fold whose every step preserves the length of the list preserves the
length of the list. -/
theorem foldl_length_eq {α ι : Type} (f : List α → ι → List α)
    (hf : ∀ l x, (f l x).length = l.length) :
    ∀ (xs : List ι) (l : List α), (xs.foldl f l).length = l.length := by
  intro xs
  induction xs with
  | nil => intro l; rfl
  | cons x xs ih => intro l; rw [List.foldl_cons, ih, hf]

theorem sphereVerticesCore_length (radius : ℝ) (v h n : ℕ) :
    (sphereVerticesCore radius v h n).length = n := by
  unfold sphereVerticesCore
  simp only []
  rw [foldl_length_eq]
  · simp
  · intro l j
    rw [foldl_length_eq]
    intro l' i
    exact List.length_set l' _ _

theorem sphereTrianglesCore_length (v h : ℕ) (n : ℤ) (m : ℕ) :
    (sphereTrianglesCore v h n m).length = m := by
  unfold sphereTrianglesCore
  simp only []
  rw [foldl_length_eq]
  · rw [foldl_length_eq]
    · rw [foldl_length_eq]
      · simp
      · intro l i; exact List.length_set l _ _
    · intro l j
      rw [foldl_length_eq]
      intro l' i
      by_cases hcase : i = h - 1 <;> simp [hcase]
  · intro l i; exact List.length_set l _ _

/-- The tessellator always fills exactly the `NVERTS` vertex slots the
caller allocates. -/
theorem sphereVertices_length (radius : ℝ) (segments : ℕ) :
    (sphereVertices radius segments).length = nvertsOf segments := by
  unfold sphereVertices nvertsOf hsegsOf vsegsOf
  simp only []
  rw [sphereVerticesCore_length]

/-- The tessellator always fills exactly the `NTRIS` triangle slots the
caller allocates. -/
theorem sphereTriangles_length (segments : ℕ) :
    (sphereTriangles segments).length = ntrisOf segments := by
  unfold sphereTriangles ntrisOf hsegsOf vsegsOf
  simp only []
  rw [sphereTrianglesCore_length]

/-! ## Claims about the tessellator -/

/-- C3 counterexample: at `segments = 2` the tessellator produces 8
triangles (top cap `hsegs = 4` plus bottom cap `4`), but the claimed
formula `2s + (s-2)*2*2s` gives `4` — it counts the two caps once (`2s`
total) instead of once each (`2s` each, `4s` total). -/
theorem triangle_count_counterexample :
    (sphereTriangles 2).length = 8 ∧
    2 * 2 + (2 - 2) * 2 * (2 * 2) = 4 ∧ (8 : ℕ) ≠ 4 :=
  ⟨by decide, by norm_num, by norm_num⟩

/-- C3 amended: for `segments = s ∈ {2, 3, 32}` the output has exactly
`1 + (s-1)*(2s+1) + 1` vertices (as claimed) and exactly
`2*(2s) + (s-2)*2*(2s)` triangles — `2s` triangles per cap, so `2*(2s)`
for the two caps, plus `2*(2s)` per middle band — not the claimed
`2s + (s-2)*2*2s`. -/
theorem vertex_triangle_counts_amended (radius : ℝ) :
    ((createSphere radius 2).1.length = 1 + (2 - 1) * (2 * 2 + 1) + 1 ∧
      (createSphere radius 2).2.length = 2 * (2 * 2) + (2 - 2) * 2 * (2 * 2)) ∧
    ((createSphere radius 3).1.length = 1 + (3 - 1) * (2 * 3 + 1) + 1 ∧
      (createSphere radius 3).2.length = 2 * (2 * 3) + (3 - 2) * 2 * (2 * 3)) ∧
    ((createSphere radius 32).1.length = 1 + (32 - 1) * (2 * 32 + 1) + 1 ∧
      (createSphere radius 32).2.length =
        2 * (2 * 32) + (32 - 2) * 2 * (2 * 32)) := by
  have hv : ∀ s : ℕ, (createSphere radius s).1.length = nvertsOf s :=
    fun s => sphereVertices_length radius s
  have ht : ∀ s : ℕ, (createSphere radius s).2.length = ntrisOf s :=
    fun s => sphereTriangles_length s
  refine ⟨⟨?_, ?_⟩, ⟨?_, ?_⟩, ⟨?_, ?_⟩⟩ <;>
    simp [hv, ht, nvertsOf, ntrisOf, hsegsOf, vsegsOf]

/-- C9: the tessellator clamps `segments` to a minimum of 2 (line 145), so
`segments = 0` and `segments = 1` produce exactly the same vertex and
triangle lists as `segments = 2` — a nonempty mesh, not a crash (the
embedding is a total function; the Rust function performs no fallible
operation). -/
theorem degenerate_segments_clamped (radius : ℝ) :
    createSphere radius 0 = createSphere radius 2 ∧
    createSphere radius 1 = createSphere radius 2 ∧
    (createSphere radius 2).1 ≠ [] ∧
    (createSphere radius 2).2 ≠ [] := by
  refine ⟨rfl, rfl, ?_, ?_⟩
  swap
  · rw [show (createSphere radius 2).2 = sphereTriangles 2 from rfl]
    decide
  intro hnil
  have h := sphereVertices_length radius 2
  rw [show (createSphere radius 2).1 = sphereVertices radius 2 from rfl] at hnil
  rw [hnil] at h
  simp [nvertsOf, vsegsOf, hsegsOf] at h

/-- C2 (evaluation of the defect): at `radius = 1`, `segments = 2`
(`hsegs = 4`), ring `j = 0`: the ring vertex loop (line 174) runs `i` only
over `0..hsegs`, so the seam slot at column `i = hsegs` (vertex index
`1 + 0*(hsegs+1) + hsegs = 5`) is never written and still holds the
`Default` vertex — position `(0,0,0)`, normal `(0,0,0)`, texture `(0,0)`
— while the column-0 vertex (index 1) has position `(1,0,0)`.  So the
seam vertex's `u` coordinate is `0`, not the claimed `1.0`, and its
position and normal differ from those at column 0. -/
theorem seam_vertex_counterexample :
    (sphereVertices 1 2).getD 5 Vertex.zero = Vertex.zero ∧
    ((sphereVertices 1 2).getD 5 Vertex.zero).tex = (0, 0) ∧
    ((sphereVertices 1 2).getD 1 Vertex.zero).pos = (1, 0, 0) ∧
    ((sphereVertices 1 2).getD 5 Vertex.zero).pos ≠
      ((sphereVertices 1 2).getD 1 Vertex.zero).pos := by
  have h5 : (sphereVertices 1 2).getD 5 Vertex.zero = Vertex.zero := rfl
  have h1 : (sphereVertices 1 2).getD 1 Vertex.zero = ringVertex 1 2 4 0 0 := rfl
  have hp : (ringVertex 1 2 4 0 0).pos = (1, 0, 0) := by
    have hpi : (1 : ℝ) / 2 * Real.pi = Real.pi / 2 := by ring
    unfold ringVertex
    simp only []
    norm_num
    rw [hpi, Real.sin_pi_div_two, Real.cos_pi_div_two]
    exact ⟨rfl, rfl⟩
  refine ⟨h5, by rw [h5]; rfl, by rw [h1, hp], ?_⟩
  rw [h5, h1, hp]
  intro hcontra
  have hfst : (0 : ℝ) = 1 := congrArg Prod.fst hcontra
  norm_num at hfst

/-- C1 counterexample: at `radius = 1`, `segments = 2` the triangle list
is not a closed 2-manifold — the directed edge `(0, 1)` (north pole to the
first ring vertex, from the first top-cap triangle) occurs in the mesh,
but its reverse `(1, 0)` occurs in no triangle at all: the caps fan across
the duplicated seam slot instead of wrapping back to column 0, leaving
boundary edges along the seam. -/
theorem closed_mesh_counterexample :
    ¬ isClosedMesh ((createSphere 1 2).2) ∧
    ((0 : ℤ), (1 : ℤ)) ∈ edgeList ((createSphere 1 2).2) ∧
    (edgeList ((createSphere 1 2).2)).count ((1 : ℤ), (0 : ℤ)) = 0 :=
  ⟨by decide, by decide, by decide⟩


/-! ## Claims about the shader hot reload -/

/-- C4: for a unit whose reload check detects a change (`some t` with `t`
newer than the stored timestamp) and whose recompilation fails, the unit
after the attempt is identical to the unit before it — same program
handle, same stored timestamp, never half-updated. -/
theorem reload_failure_preserves_unit (env : FsEnv) (s : Shader) (t : ℕ)
    (ht : getShaderChangeTime env s.fragPath s.vertPath = some t)
    (hstale : s.programTime < t)
    (hfail : shaderNew env t s.fragPath s.vertPath = none) :
    (reloadIfChanged env s).1 = s := by
  simp [reloadIfChanged, ht, hstale, hfail]

/-- An environment in which both files report modification time 5 and
every compilation fails. -/
def envFail : FsEnv :=
  { mtime := fun _ => some 5, compileAt := fun _ _ => none }

/-- An environment in which both files report modification time 5 and
compilation succeeds with handle 9. -/
def envOk : FsEnv :=
  { mtime := fun _ => some 5, compileAt := fun _ _ => some 9 }

/-- A shader unit built at timestamp 0 with program handle 7. -/
def unit0 : Shader :=
  { program := 7, programTime := 0, fragPath := "a.frag", vertPath := "a.vert" }

theorem reload_failure_preserves_unit_witness :
    getShaderChangeTime envFail unit0.fragPath unit0.vertPath = some 5 ∧
    unit0.programTime < 5 ∧
    shaderNew envFail 5 unit0.fragPath unit0.vertPath = none ∧
    (reloadIfChanged envFail unit0).1 = unit0 :=
  ⟨rfl, by decide, rfl,
    reload_failure_preserves_unit envFail unit0 5 rfl (by decide) rfl⟩

/-- C5 counterexample: both modification times stay fixed at 5 (no change
between the two calls), the stored timestamp is 0, and the sources fail to
compile.  The first check attempts a recompilation and fails, leaving the
stored timestamp at 0, so the second check performs a recompilation again
— not zero recompilations after the first check. -/
theorem reload_twice_counterexample :
    (reloadIfChanged envFail unit0).2 = true ∧
    (reloadIfChanged envFail ((reloadIfChanged envFail unit0).1)).2 = true :=
  ⟨rfl, rfl⟩

/-- C5 amended: provided recompilation of the unit's sources succeeds
(after a failed recompilation the stored timestamp is deliberately kept,
so the next check retries), two successive checks against an unchanged
file system perform zero recompilations after the first check; and a check
performs a recompilation exactly when the maximum of the two files'
modification times is strictly newer than the stored timestamp — so
raising either file's timestamp above the stored one (even with unchanged
content) triggers exactly one recompilation on the next check. -/
theorem reload_staleness (env : FsEnv) (s : Shader)
    (hsucc : (env.compileAt s.vertPath s.fragPath).isSome = true) :
    (reloadIfChanged env ((reloadIfChanged env s).1)).2 = false ∧
    ∀ tf tv, env.mtime s.fragPath = some tf → env.mtime s.vertPath = some tv →
      ((reloadIfChanged env s).2 = true ↔ s.programTime < max tf tv) := by
  obtain ⟨p, hp⟩ := Option.isSome_iff_exists.mp hsucc
  constructor
  · rcases hc : getShaderChangeTime env s.fragPath s.vertPath with _ | t
    · simp [reloadIfChanged, hc]
    · by_cases hlt : s.programTime < t
      · simp [reloadIfChanged, hc, hlt, shaderNew, hp]
      · simp [reloadIfChanged, hc, hlt]
  · intro tf tv htf htv
    have hc : getShaderChangeTime env s.fragPath s.vertPath
        = some (max tf tv) := by
      simp [getShaderChangeTime, htf, htv]
    by_cases hlt : s.programTime < max tf tv
    · rcases hn : shaderNew env (max tf tv) s.fragPath s.vertPath with _ | s'
      · simp [reloadIfChanged, hc, hlt, hn]
      · simp [reloadIfChanged, hc, hlt, hn]
    · simp [reloadIfChanged, hc, hlt]

theorem reload_staleness_witness :
    (reloadIfChanged envOk ((reloadIfChanged envOk unit0).1)).2 = false ∧
    ((reloadIfChanged envOk unit0).2 = true ↔ unit0.programTime < max 5 5) :=
  ⟨(reload_staleness envOk unit0 rfl).1,
    (reload_staleness envOk unit0 rfl).2 5 5 rfl rfl⟩

/-! ## Claims about `update_ui` -/

/-- C8: the FPS readout is not guarded.  Even when the running average
frame time is exactly 0 the code still produces the readout, performing
the division `1.0 / 0.0` (an `f32` infinity in the source) instead of
skipping it — the readout is `some (1 / 0, 0 * 1000)`, never the `none`
("no reading yet") the claim describes. -/
theorem fps_division_not_guarded (b : Bool) (a : ℝ) (v : ℝ × ℝ × ℝ) :
    (updateUi b ⟨0, a, v⟩).2 = some (1 / 0, 0 * 1000) := rfl

/-- C7 counterexample: with the slider at 0° the recomputed sun position
is `(0, 0, -10000)`, not the `(10000, 0, 0)` that the claimed
`(cos 0, 0, -sin 0) = (1, 0, 0)` direction (scaled by the large distance
10000) would give. -/
theorem sun_angle_zero_counterexample :
    (updateUi true ⟨1, 0, (0, 0, -1)⟩).1.sunPos = ((0 : ℝ), (0 : ℝ), (-10000 : ℝ)) ∧
    (updateUi true ⟨1, 0, (0, 0, -1)⟩).1.sunPos ≠ ((10000 : ℝ), (0 : ℝ), (0 : ℝ)) := by
  have h : (updateUi true ⟨1, 0, (0, 0, -1)⟩).1.sunPos
      = (10000 * Real.sin (toRadians 0), 0, 10000 * (-Real.cos (toRadians 0))) := rfl
  rw [h]
  simp only [toRadians, zero_mul, Real.sin_zero, Real.cos_zero, mul_zero]
  norm_num

/-- C7 amended: the code's formula feeds `x = cos angle`, `y = sin angle`
into `sun_pos = (10000*y, 0, 10000*(-x))`, so a slider angle of 0° yields
the sun position `(0, 0, -10000)`, i.e. the direction
`(sin 0, 0, -cos 0) = (0, 0, -1)` scaled by 10000 (consistent with the
initial `sun_pos = (0, 0, -1)` of `State::new`), not a `(1, 0, 0)`-derived
vector. -/
theorem sun_angle_zero_amended (a : ℝ) (v : ℝ × ℝ × ℝ) :
    (updateUi true ⟨a, 0, v⟩).1.sunPos = ((0 : ℝ), (0 : ℝ), (-10000 : ℝ)) := by
  have h : (updateUi true ⟨a, 0, v⟩).1.sunPos
      = (10000 * Real.sin (toRadians 0), 0, 10000 * (-Real.cos (toRadians 0))) := rfl
  rw [h]
  simp only [toRadians, zero_mul, Real.sin_zero, Real.cos_zero, mul_zero]
  norm_num

/-! ## Claim about the cursor-move event -/

/-- C10: a cursor-move event whose truncated x or y coordinate is 0 leaves
the stored mouse position unchanged (the update is dropped); when both
truncated coordinates are nonzero, the stored position is replaced by the
event's coordinates. -/
theorem cursor_move_zero_dropped (m : MouseState) (x y : ℤ) :
    ((x = 0 ∨ y = 0) → handleCursorMoved m x y = m) ∧
    (x ≠ 0 → y ≠ 0 → handleCursorMoved m x y = { m with pos := (x, y) }) := by
  constructor
  · intro h
    have : ¬(x ≠ 0 ∧ y ≠ 0) := by tauto
    simp [handleCursorMoved, this]
  · intro hx hy
    simp [handleCursorMoved, hx, hy]

/-- A concrete mouse state. -/
def mouse0 : MouseState := { pos := (3, 4), pressed := (false, false, false), wheel := 0 }

theorem cursor_move_zero_dropped_witness :
    handleCursorMoved mouse0 0 5 = mouse0 ∧
    handleCursorMoved mouse0 2 5 = { mouse0 with pos := (2, 5) } :=
  ⟨(cursor_move_zero_dropped mouse0 0 5).1 (Or.inl rfl),
    (cursor_move_zero_dropped mouse0 2 5).2 (by decide) (by decide)⟩

/-! ## Claims about the composite pass -/

/-- C6 counterexample: the composite pass does not issue the starfield
draw first — the first draw call after the clear (position 2 of the
command stream) is the planet mesh, the starfield comes second. -/
theorem composite_pass_order_counterexample :
    compositePass ≠ claimedCompositePass ∧
    compositePass[2]? =
      some (.draw .planetMesh .trianglesIndexed .planet planetParams) ∧
    claimedCompositePass[2]? =
      some (.draw .starPoints .pointsUnindexed .star starParams) := by
  refine ⟨by decide, rfl, rfl⟩

/-- C6 amended: in the composite pass, after the clear the planet mesh is
drawn first (clockwise culling, standard depth test, no blending), then
the starfield (unindexed points, depth test, no culling), then the cloud
mesh twice with alpha blending (counter-clockwise culling first, then
clockwise), followed by the shadow-target blit and the UI overlay. -/
theorem composite_pass_order_amended :
    compositePass =
      [RenderCmd.clearColor, RenderCmd.clearDepth] ++
      [RenderCmd.draw .planetMesh .trianglesIndexed .planet planetParams,
       RenderCmd.draw .starPoints .pointsUnindexed .star starParams,
       RenderCmd.draw .planetMesh .trianglesIndexed .cloud cloudParamsBack,
       RenderCmd.draw .planetMesh .trianglesIndexed .cloud cloudParamsForward] ++
      [RenderCmd.blitShadowmap, RenderCmd.uiOverlay] ∧
    planetParams.cull = .clockwise ∧
    planetParams.depthTest = .ifLess ∧
    planetParams.blend = .noBlend ∧
    starParams.cull = .disabled ∧
    starParams.depthTest = .ifLess ∧
    cloudParamsBack.blend = .alpha ∧
    cloudParamsBack.cull = .counterClockwise ∧
    cloudParamsForward.blend = .alpha ∧
    cloudParamsForward.cull = .clockwise := by
  refine ⟨rfl, rfl, rfl, rfl, rfl, rfl, rfl, rfl, rfl, rfl⟩

end Planet

namespace Planet

/-- Write the values `vs` into `l` at consecutive positions starting at
`n`. -/
def setAll {α : Type} : List α → ℕ → List α → List α
  | l, _, [] => l
  | l, n, v :: vs => setAll (l.set n v) (n + 1) vs

theorem length_setAll {α : Type} :
    ∀ (vs : List α) (l : List α) (n : ℕ), (setAll l n vs).length = l.length := by
  intro vs
  induction vs with
  | nil => intro l n; rfl
  | cons v vs ih => intro l n; rw [setAll, ih, List.length_set]

theorem setAll_append {α : Type} :
    ∀ (vs ws : List α) (l : List α) (n : ℕ),
      setAll l n (vs ++ ws) = setAll (setAll l n vs) (n + vs.length) ws := by
  intro vs
  induction vs with
  | nil => intro ws l n; simp [setAll]
  | cons v vs ih =>
      intro ws l n
      rw [List.cons_append, setAll, setAll, ih]
      congr 1
      simp
      omega

theorem take_succ_set {α : Type} :
    ∀ (n : ℕ) (l : List α) (v : α), n < l.length →
      (l.set n v).take (n + 1) = l.take n ++ [v] := by
  intro n
  induction n with
  | zero =>
      intro l v h
      cases l with
      | nil => simp at h
      | cons a l => simp [List.set]
  | succ n ih =>
      intro l v h
      cases l with
      | nil => simp at h
      | cons a l =>
          simp only [List.set, List.take_succ_cons, List.cons_append]
          rw [ih]
          simpa using Nat.lt_of_succ_lt_succ h

theorem setAll_eq_append {α : Type} :
    ∀ (vs : List α) (l : List α) (n : ℕ), n + vs.length ≤ l.length →
      setAll l n vs = l.take n ++ vs ++ l.drop (n + vs.length) := by
  intro vs
  induction vs with
  | nil => intro l n h; simp [setAll, List.take_append_drop]
  | cons v vs ih =>
      intro l n h
      have hn : n < l.length := by simp at h; omega
      have hlen : n + 1 + vs.length ≤ (l.set n v).length := by
        rw [List.length_set]; simp at h; omega
      rw [setAll, ih _ _ hlen]
      rw [take_succ_set n l v hn]
      rw [List.drop_set_of_lt _ _ (by omega : n < n + 1 + vs.length)]
      simp only [List.append_assoc, List.cons_append, List.nil_append]
      have harith : n + 1 + vs.length = n + (v :: vs).length := by
        simp; omega
      rw [harith]

end Planet

namespace Planet

/-- Length of a flattened map whose chunks all have length `c`. -/
theorem flatten_map_length_const {α β : Type} (l : List α) (f : α → List β)
    (c : ℕ) (hf : ∀ x ∈ l, (f x).length = c) :
    ((l.map f).flatten).length = c * l.length := by
  induction l with
  | nil => simp
  | cons a l ih =>
      rw [List.map_cons, List.flatten_cons, List.length_append,
        hf a (by simp), ih (fun x hx => hf x (by simp [hx])),
        List.length_cons]
      ring

/-- Flattening singleton chunks is a plain map. -/
theorem flatten_singletons {α : Type} (l : List ℕ) (f : ℕ → α) :
    ((l.map (fun i => [f i])).flatten) = l.map f := by
  induction l with
  | nil => rfl
  | cons a l ih => simp [ih]

/-- A fold over `range m` whose step writes a fixed-size chunk at
consecutive positions equals one combined `setAll` of the flattened
chunks. -/
theorem foldl_chunks {α : Type} (c p : ℕ) (chunk : ℕ → List α)
    (hc : ∀ i, (chunk i).length = c) (step : List α → ℕ → List α)
    (hstep : ∀ l i, step l i = setAll l (p + c * i) (chunk i)) :
    ∀ (m : ℕ) (l : List α),
      (List.range m).foldl step l =
        setAll l p ((List.range m).map chunk).flatten := by
  intro m
  induction m with
  | zero => intro l; simp [setAll]
  | succ m ih =>
      intro l
      rw [List.range_succ, List.foldl_append, ih, List.foldl_cons,
        List.foldl_nil, hstep]
      have hlen : (((List.range m).map chunk).flatten).length = c * m := by
        rw [flatten_map_length_const _ _ c (fun x _ => hc x)]
        simp
      rw [List.map_append, List.flatten_append, setAll_append]
      simp only [List.map_cons, List.map_nil, List.flatten_cons,
        List.flatten_nil, List.append_nil]
      rw [hlen]

/-- Top-cap triangle `i` (lines 191-195). -/
def topCapTri (i : ℕ) : Triangle := ⟨0, 1 + (i : ℤ), 2 + (i : ℤ)⟩

/-- First triangle of quad `i` of middle band `j` (lines 197-219). -/
def bandTriA (hsegs j i : ℕ) : Triangle :=
  let i0 : ℤ := 1 + (j : ℤ) * ((hsegs : ℤ) + 1) + (i : ℤ)
  if i = hsegs - 1 then
    let i00 : ℤ := (j : ℤ) * ((hsegs : ℤ) + 1)
    ⟨i0, i0 + (hsegs : ℤ) + 1, i00 + 1⟩
  else
    ⟨i0, i0 + (hsegs : ℤ) + 1, i0 + 1⟩

/-- Second triangle of quad `i` of middle band `j` (lines 197-219). -/
def bandTriB (hsegs j i : ℕ) : Triangle :=
  let i0 : ℤ := 1 + (j : ℤ) * ((hsegs : ℤ) + 1) + (i : ℤ)
  if i = hsegs - 1 then
    let i00 : ℤ := (j : ℤ) * ((hsegs : ℤ) + 1)
    ⟨i00 + 1, i0 + (hsegs : ℤ) + 1, i00 + (hsegs : ℤ) + 2⟩
  else
    ⟨i0 + 1, i0 + (hsegs : ℤ) + 1, i0 + (hsegs : ℤ) + 2⟩

/-- Bottom-cap triangle `i` (lines 222-227). -/
def botCapTri (nverts : ℤ) (i : ℕ) : Triangle :=
  ⟨nverts - 1, nverts - 2 - (i : ℤ), nverts - 3 - (i : ℤ)⟩

/-- One middle band in closed form. -/
def bandList (hsegs j : ℕ) : List Triangle :=
  ((List.range hsegs).map
    (fun i => [bandTriA hsegs j i, bandTriB hsegs j i])).flatten

/-- The triangle list in closed form: top cap, middle bands (two
triangles per quad), bottom cap — in the slot order in which
`create_sphere` writes them. -/
def triListClosed (vsegs hsegs : ℕ) (nverts : ℤ) : List Triangle :=
  (List.range hsegs).map topCapTri ++
    ((List.range (vsegs - 2)).map (bandList hsegs)).flatten ++
    (List.range hsegs).map (botCapTri nverts)

theorem bandList_length (hsegs j : ℕ) : (bandList hsegs j).length = 2 * hsegs := by
  unfold bandList
  rw [flatten_map_length_const (List.range hsegs)
    (fun i => [bandTriA hsegs j i, bandTriB hsegs j i]) 2 (fun x _ => rfl)]
  simp

theorem top_fold_eq (h : ℕ) (ts : List Triangle) :
    (List.range h).foldl
      (fun ts i => ts.set i (⟨0, 1 + (i : ℤ), 2 + (i : ℤ)⟩ : Triangle)) ts =
      setAll ts 0 ((List.range h).map topCapTri) := by
  rw [foldl_chunks 1 0 (fun i => [topCapTri i]) (fun i => rfl) _
    (by
      intro l i
      show l.set i _ = setAll l (0 + 1 * i) _
      rw [Nat.zero_add, Nat.one_mul]
      rfl)]
  rw [flatten_singletons]

theorem band_fold_eq (h j : ℕ) (ts : List Triangle) :
    (List.range h).foldl
      (fun ts i =>
        if i = h - 1 then
          (ts.set (h + 2 * (j * h + i))
            (⟨1 + (j : ℤ) * ((h : ℤ) + 1) + (i : ℤ),
              1 + (j : ℤ) * ((h : ℤ) + 1) + (i : ℤ) + (h : ℤ) + 1,
              (j : ℤ) * ((h : ℤ) + 1) + 1⟩ : Triangle)).set
            (h + 2 * (j * h + i) + 1)
            (⟨(j : ℤ) * ((h : ℤ) + 1) + 1,
              1 + (j : ℤ) * ((h : ℤ) + 1) + (i : ℤ) + (h : ℤ) + 1,
              (j : ℤ) * ((h : ℤ) + 1) + (h : ℤ) + 2⟩ : Triangle)
        else
          (ts.set (h + 2 * (j * h + i))
            (⟨1 + (j : ℤ) * ((h : ℤ) + 1) + (i : ℤ),
              1 + (j : ℤ) * ((h : ℤ) + 1) + (i : ℤ) + (h : ℤ) + 1,
              1 + (j : ℤ) * ((h : ℤ) + 1) + (i : ℤ) + 1⟩ : Triangle)).set
            (h + 2 * (j * h + i) + 1)
            (⟨1 + (j : ℤ) * ((h : ℤ) + 1) + (i : ℤ) + 1,
              1 + (j : ℤ) * ((h : ℤ) + 1) + (i : ℤ) + (h : ℤ) + 1,
              1 + (j : ℤ) * ((h : ℤ) + 1) + (i : ℤ) + (h : ℤ) + 2⟩ : Triangle))
      ts =
      setAll ts (h + 2 * (j * h)) (bandList h j) := by
  rw [foldl_chunks 2 (h + 2 * (j * h))
    (fun i => [bandTriA h j i, bandTriB h j i]) (fun i => rfl) _
    (by
      intro l i
      have hbase : h + 2 * (j * h + i) = h + 2 * (j * h) + 2 * i := by ring
      by_cases hi : i = h - 1
      · simp only [if_pos hi, bandTriA, bandTriB, hbase]
        rfl
      · simp only [if_neg hi, bandTriA, bandTriB, hbase]
        rfl)]
  rfl

theorem bot_fold_eq (h q : ℕ) (n : ℤ) (ts : List Triangle) :
    (List.range h).foldl
      (fun ts i => ts.set (q + i)
        (⟨n - 1, n - 2 - (i : ℤ), n - 3 - (i : ℤ)⟩ : Triangle)) ts =
      setAll ts q ((List.range h).map (botCapTri n)) := by
  rw [foldl_chunks 1 q (fun i => [botCapTri n i]) (fun i => rfl) _
    (by
      intro l i
      show l.set _ _ = setAll l (q + 1 * i) _
      rw [Nat.one_mul]
      rfl)]
  rw [flatten_singletons]

theorem mid_fold_eq (v h : ℕ) (ts : List Triangle) :
    (List.range (v - 2)).foldl
      (fun ts j =>
        (List.range h).foldl
          (fun ts i =>
            if i = h - 1 then
              (ts.set (h + 2 * (j * h + i))
                (⟨1 + (j : ℤ) * ((h : ℤ) + 1) + (i : ℤ),
                  1 + (j : ℤ) * ((h : ℤ) + 1) + (i : ℤ) + (h : ℤ) + 1,
                  (j : ℤ) * ((h : ℤ) + 1) + 1⟩ : Triangle)).set
                (h + 2 * (j * h + i) + 1)
                (⟨(j : ℤ) * ((h : ℤ) + 1) + 1,
                  1 + (j : ℤ) * ((h : ℤ) + 1) + (i : ℤ) + (h : ℤ) + 1,
                  (j : ℤ) * ((h : ℤ) + 1) + (h : ℤ) + 2⟩ : Triangle)
            else
              (ts.set (h + 2 * (j * h + i))
                (⟨1 + (j : ℤ) * ((h : ℤ) + 1) + (i : ℤ),
                  1 + (j : ℤ) * ((h : ℤ) + 1) + (i : ℤ) + (h : ℤ) + 1,
                  1 + (j : ℤ) * ((h : ℤ) + 1) + (i : ℤ) + 1⟩ : Triangle)).set
                (h + 2 * (j * h + i) + 1)
                (⟨1 + (j : ℤ) * ((h : ℤ) + 1) + (i : ℤ) + 1,
                  1 + (j : ℤ) * ((h : ℤ) + 1) + (i : ℤ) + (h : ℤ) + 1,
                  1 + (j : ℤ) * ((h : ℤ) + 1) + (i : ℤ) + (h : ℤ) + 2⟩ : Triangle))
          ts)
      ts =
      setAll ts h (((List.range (v - 2)).map (bandList h)).flatten) := by
  rw [foldl_chunks (2 * h) h (bandList h) (bandList_length h)
      (fun ts j =>
        (List.range h).foldl
          (fun ts i =>
            if i = h - 1 then
              (ts.set (h + 2 * (j * h + i))
                (⟨1 + (j : ℤ) * ((h : ℤ) + 1) + (i : ℤ),
                  1 + (j : ℤ) * ((h : ℤ) + 1) + (i : ℤ) + (h : ℤ) + 1,
                  (j : ℤ) * ((h : ℤ) + 1) + 1⟩ : Triangle)).set
                (h + 2 * (j * h + i) + 1)
                (⟨(j : ℤ) * ((h : ℤ) + 1) + 1,
                  1 + (j : ℤ) * ((h : ℤ) + 1) + (i : ℤ) + (h : ℤ) + 1,
                  (j : ℤ) * ((h : ℤ) + 1) + (h : ℤ) + 2⟩ : Triangle)
            else
              (ts.set (h + 2 * (j * h + i))
                (⟨1 + (j : ℤ) * ((h : ℤ) + 1) + (i : ℤ),
                  1 + (j : ℤ) * ((h : ℤ) + 1) + (i : ℤ) + (h : ℤ) + 1,
                  1 + (j : ℤ) * ((h : ℤ) + 1) + (i : ℤ) + 1⟩ : Triangle)).set
                (h + 2 * (j * h + i) + 1)
                (⟨1 + (j : ℤ) * ((h : ℤ) + 1) + (i : ℤ) + 1,
                  1 + (j : ℤ) * ((h : ℤ) + 1) + (i : ℤ) + (h : ℤ) + 1,
                  1 + (j : ℤ) * ((h : ℤ) + 1) + (i : ℤ) + (h : ℤ) + 2⟩ : Triangle))
          ts)
      (by
        intro l j
        simp only []
        rw [band_fold_eq h j l]
        have harith : h + 2 * h * j = h + 2 * (j * h) := by ring
        rw [harith])]

theorem sphereTrianglesCore_eq_closed (v h : ℕ) (n : ℤ) :
    sphereTrianglesCore v h n (h + (v - 2) * h * 2 + h) =
      triListClosed v h n := by
  unfold sphereTrianglesCore
  simp only []
  rw [top_fold_eq, mid_fold_eq, bot_fold_eq]
  have hlen_top : ((List.range h).map topCapTri).length = h := by simp
  have hlen_mid : (((List.range (v - 2)).map (bandList h)).flatten).length
      = 2 * h * (v - 2) := by
    rw [flatten_map_length_const ((List.range (v - 2)))
      (bandList h) (2 * h) (fun x _ => bandList_length h x)]
    simp
  have h1 : setAll
      (setAll (List.replicate (h + (v - 2) * h * 2 + h) Triangle.zero) 0
        ((List.range h).map topCapTri))
      h (((List.range (v - 2)).map (bandList h)).flatten) =
      setAll (List.replicate (h + (v - 2) * h * 2 + h) Triangle.zero) 0
        ((List.range h).map topCapTri ++
          ((List.range (v - 2)).map (bandList h)).flatten) := by
    rw [setAll_append]
    rw [hlen_top]
    rw [Nat.zero_add]
  rw [h1]
  have h2 : setAll
      (setAll (List.replicate (h + (v - 2) * h * 2 + h) Triangle.zero) 0
        ((List.range h).map topCapTri ++
          ((List.range (v - 2)).map (bandList h)).flatten))
      (h + 2 * (v - 2) * h) ((List.range h).map (botCapTri n)) =
      setAll (List.replicate (h + (v - 2) * h * 2 + h) Triangle.zero) 0
        (((List.range h).map topCapTri ++
          ((List.range (v - 2)).map (bandList h)).flatten) ++
          (List.range h).map (botCapTri n)) := by
    conv_rhs => rw [setAll_append]
    rw [List.length_append, hlen_top, hlen_mid]
    have : 0 + (h + 2 * h * (v - 2)) = h + 2 * (v - 2) * h := by ring
    rw [this]
  rw [h2]
  rw [setAll_eq_append _ _ _ (by
    simp only [List.length_append, List.length_replicate, hlen_top,
      hlen_mid, List.length_map, List.length_range]
    ring_nf
    omega)]
  simp only [List.take_zero, List.nil_append, Nat.zero_add]
  have hdrop : (List.replicate (h + (v - 2) * h * 2 + h) Triangle.zero).drop
      (((List.range h).map topCapTri ++
        ((List.range (v - 2)).map (bandList h)).flatten ++
        (List.range h).map (botCapTri n)).length) = [] := by
    apply List.drop_eq_nil_of_le
    simp only [List.length_append, List.length_replicate, hlen_top,
      hlen_mid, List.length_map, List.length_range]
    ring_nf
    omega
  rw [hdrop, List.append_nil]
  unfold triListClosed
  rfl

/-- Abstract grid vertex: north pole, south pole, or ring `j` column `c`
(`j < vsegs - 1`, `c < hsegs`), used to describe the canonical (seam
identified) mesh. -/
inductive GV
  | north
  | south
  | ring (j : ℕ) (c : ℕ)
deriving DecidableEq

/-- The vertex index a grid vertex occupies in the vertex list: north at
0, ring `j` column `c` at `1 + j*(hsegs+1) + c`, south at `nverts - 1 =
1 + (vsegs-1)*(hsegs+1)`. -/
def encodeGV (vsegs hsegs : ℕ) : GV → ℤ
  | .north => 0
  | .south => 1 + ((vsegs : ℤ) - 1) * ((hsegs : ℤ) + 1)
  | .ring j c => 1 + (j : ℤ) * ((hsegs : ℤ) + 1) + (c : ℤ)

theorem canon_ring (h a b : ℕ) (hb : b < h) :
    canonIndex h (1 + (a : ℤ) * ((h : ℤ) + 1) + (b : ℤ)) =
      1 + (a : ℤ) * ((h : ℤ) + 1) + (b : ℤ) := by
  have hcast : (b : ℤ) < (h : ℤ) + 1 := by exact_mod_cast Nat.lt_succ_of_lt hb
  unfold canonIndex
  rw [if_neg]
  rintro ⟨-, h2⟩
  have hx : (1 + (a : ℤ) * ((h : ℤ) + 1) + (b : ℤ)) - 1 =
      (b : ℤ) + ((h : ℤ) + 1) * (a : ℤ) := by ring
  rw [hx, Int.add_mul_emod_self_left,
    Int.emod_eq_of_lt (by positivity) hcast] at h2
  omega

theorem canon_seam (h a : ℕ) :
    canonIndex h (1 + (a : ℤ) * ((h : ℤ) + 1) + (h : ℤ)) =
      1 + (a : ℤ) * ((h : ℤ) + 1) := by
  unfold canonIndex
  rw [if_pos]
  · ring
  · constructor
    · have : (0 : ℤ) ≤ (a : ℤ) * ((h : ℤ) + 1) := by positivity
      have : (0 : ℤ) ≤ (h : ℤ) := by positivity
      omega
    · have hx : (1 + (a : ℤ) * ((h : ℤ) + 1) + (h : ℤ)) - 1 =
          (h : ℤ) + ((h : ℤ) + 1) * (a : ℤ) := by ring
      rw [hx, Int.add_mul_emod_self_left,
        Int.emod_eq_of_lt (by positivity) (by omega)]

theorem canon_north (h : ℕ) : canonIndex h 0 = 0 := by
  unfold canonIndex
  rw [if_neg]
  rintro ⟨h1, -⟩
  omega

/-- Canonical top-cap triangle `i`: pole, ring-0 column `i`, ring-0 column
`i+1` (wrapping). -/
def gridTopTri (h i : ℕ) : GV × GV × GV :=
  (.north, .ring 0 i, .ring 0 ((i + 1) % h))

/-- Canonical first band triangle of quad `i`, band `j`. -/
def gridBandTriA (h j i : ℕ) : GV × GV × GV :=
  (.ring j i, .ring (j + 1) i, .ring j ((i + 1) % h))

/-- Canonical second band triangle of quad `i`, band `j`. -/
def gridBandTriB (h j i : ℕ) : GV × GV × GV :=
  (.ring j ((i + 1) % h), .ring (j + 1) i, .ring (j + 1) ((i + 1) % h))

/-- Canonical bottom-cap triangle `i`: pole and the last ring (`vsegs-2`),
walked leftward from column 0 (`i = 0` reads the seam slot, canonically
column 0). -/
def gridBotTri (v h i : ℕ) : GV × GV × GV :=
  (.south, .ring (v - 2) ((h - i) % h), .ring (v - 2) (h - 1 - i))

/-- `encodeGV` on all three corners. -/
def encodeTriangle (v h : ℕ) (t : GV × GV × GV) : Triangle :=
  ⟨encodeGV v h t.1, encodeGV v h t.2.1, encodeGV v h t.2.2⟩

theorem canon_ring_of_eq (h a b : ℕ) (hb : b < h) (x : ℤ)
    (hx : x = 1 + (a : ℤ) * ((h : ℤ) + 1) + (b : ℤ)) :
    canonIndex h x = x := by
  rw [hx]; exact canon_ring h a b hb

theorem canon_seam_of_eq (h a : ℕ) (x : ℤ)
    (hx : x = 1 + (a : ℤ) * ((h : ℤ) + 1) + (h : ℤ)) :
    canonIndex h x = 1 + (a : ℤ) * ((h : ℤ) + 1) := by
  rw [hx]; exact canon_seam h a

theorem canonTri_topCap (v h i : ℕ) (hh : 1 ≤ h) (hi : i < h) :
    canonTriangle h (topCapTri i) = encodeTriangle v h (gridTopTri h i) := by
  unfold canonTriangle topCapTri encodeTriangle encodeGV gridTopTri
  simp only []
  rw [Triangle.mk.injEq]
  refine ⟨canon_north h, ?_, ?_⟩
  · rw [canon_ring_of_eq h 0 i hi _ (by push_cast; ring)]
    push_cast; ring
  · by_cases hcase : i = h - 1
    · rw [canon_seam_of_eq h 0 _ (by subst hcase; push_cast [Nat.cast_sub hh]; ring)]
      have hieq : i + 1 = h := by omega
      have hmod : (i + 1) % h = 0 := by rw [hieq, Nat.mod_self]
      rw [hmod]
      push_cast; ring
    · rw [canon_ring_of_eq h 0 (i + 1) (by omega) _ (by push_cast; ring)]
      have hmod : (i + 1) % h = i + 1 := Nat.mod_eq_of_lt (by omega)
      rw [hmod]
      push_cast; ring

theorem canonTri_bandA (v h j i : ℕ) (hh : 1 ≤ h) (hi : i < h) :
    canonTriangle h (bandTriA h j i) =
      encodeTriangle v h (gridBandTriA h j i) := by
  unfold canonTriangle bandTriA encodeTriangle encodeGV gridBandTriA
  simp only []
  by_cases hcase : i = h - 1
  · rw [if_pos hcase, Triangle.mk.injEq]
    refine ⟨canon_ring_of_eq h j i hi _ (by ring), ?_, ?_⟩
    · rw [canon_ring_of_eq h (j + 1) i hi _ (by push_cast; ring)]
      push_cast; ring
    · rw [canon_ring_of_eq h j 0 (by omega) _ (by push_cast; ring)]
      have hieq : i + 1 = h := by omega
      have hmod : (i + 1) % h = 0 := by rw [hieq, Nat.mod_self]
      rw [hmod]
      push_cast; ring
  · rw [if_neg hcase, Triangle.mk.injEq]
    refine ⟨canon_ring_of_eq h j i hi _ (by ring), ?_, ?_⟩
    · rw [canon_ring_of_eq h (j + 1) i hi _ (by push_cast; ring)]
      push_cast; ring
    · rw [canon_ring_of_eq h j (i + 1) (by omega) _ (by push_cast; ring)]
      have hmod : (i + 1) % h = i + 1 := Nat.mod_eq_of_lt (by omega)
      rw [hmod]
      push_cast; ring

theorem canonTri_bandB (v h j i : ℕ) (hh : 1 ≤ h) (hi : i < h) :
    canonTriangle h (bandTriB h j i) =
      encodeTriangle v h (gridBandTriB h j i) := by
  unfold canonTriangle bandTriB encodeTriangle encodeGV gridBandTriB
  simp only []
  by_cases hcase : i = h - 1
  · rw [if_pos hcase, Triangle.mk.injEq]
    have hieq : i + 1 = h := by omega
    have hmod : (i + 1) % h = 0 := by rw [hieq, Nat.mod_self]
    refine ⟨?_, ?_, ?_⟩
    · rw [canon_ring_of_eq h j 0 (by omega) _ (by push_cast; ring)]
      rw [hmod]
      push_cast; ring
    · rw [canon_ring_of_eq h (j + 1) i hi _ (by push_cast; ring)]
      push_cast; ring
    · rw [canon_ring_of_eq h (j + 1) 0 (by omega) _ (by push_cast; ring)]
      rw [hmod]
      push_cast; ring
  · rw [if_neg hcase, Triangle.mk.injEq]
    have hmod : (i + 1) % h = i + 1 := Nat.mod_eq_of_lt (by omega)
    refine ⟨?_, ?_, ?_⟩
    · rw [canon_ring_of_eq h j (i + 1) (by omega) _ (by push_cast; ring)]
      rw [hmod]
      push_cast; ring
    · rw [canon_ring_of_eq h (j + 1) i hi _ (by push_cast; ring)]
      push_cast; ring
    · rw [canon_ring_of_eq h (j + 1) (i + 1) (by omega) _ (by push_cast; ring)]
      rw [hmod]
      push_cast; ring

theorem canonTri_botCap (v h i : ℕ) (hv : 2 ≤ v) (hh : 1 ≤ h) (hi : i < h) :
    canonTriangle h (botCapTri ((1 + (v - 1) * (h + 1) + 1 : ℕ) : ℤ) i) =
      encodeTriangle v h (gridBotTri v h i) := by
  have c1 : ((v - 1 : ℕ) : ℤ) = (v : ℤ) - 1 := by omega
  have c2 : ((v - 2 : ℕ) : ℤ) = (v : ℤ) - 2 := by omega
  have c3 : ((h - i : ℕ) : ℤ) = (h : ℤ) - (i : ℤ) := by omega
  have c4 : ((h - 1 - i : ℕ) : ℤ) = (h : ℤ) - 1 - (i : ℤ) := by omega
  have hcast : ((1 + (v - 1) * (h + 1) + 1 : ℕ) : ℤ) =
      2 + ((v : ℤ) - 1) * ((h : ℤ) + 1) := by
    push_cast [c1]
    ring
  unfold canonTriangle botCapTri encodeTriangle encodeGV gridBotTri
  simp only []
  rw [Triangle.mk.injEq]
  refine ⟨?_, ?_, ?_⟩
  · rw [canon_ring_of_eq h (v - 1) 0 (by omega) _
      (by rw [hcast, c1]; push_cast; ring)]
    rw [hcast]; ring
  · by_cases hcase : i = 0
    · subst hcase
      rw [canon_seam_of_eq h (v - 2) _ (by rw [hcast, c2]; push_cast; ring)]
      have hmod : (h - 0) % h = 0 := by
        rw [Nat.sub_zero, Nat.mod_self]
      rw [hmod, c2]
      push_cast; ring
    · rw [canon_ring_of_eq h (v - 2) (h - i) (by omega) _
        (by rw [hcast, c2, c3]; push_cast; ring)]
      have hmod : (h - i) % h = h - i := Nat.mod_eq_of_lt (by omega)
      rw [hmod, hcast, c2, c3]
      push_cast; ring
  · rw [canon_ring_of_eq h (v - 2) (h - 1 - i) (by omega) _
      (by rw [hcast, c2, c4]; push_cast; ring)]
    rw [hcast, c2, c4]
    push_cast; ring

/-- One canonical middle band. -/
def gridBandList (h j : ℕ) : List (GV × GV × GV) :=
  ((List.range h).map (fun i => [gridBandTriA h j i, gridBandTriB h j i])).flatten

/-- The canonical (seam-identified) mesh in grid coordinates. -/
def gridTris (v h : ℕ) : List (GV × GV × GV) :=
  (List.range h).map (gridTopTri h) ++
    ((List.range (v - 2)).map (gridBandList h)).flatten ++
    (List.range h).map (gridBotTri v h)

/-- Canonicalizing the closed-form triangle list gives exactly the encoded
grid mesh. -/
theorem canon_triList (v h : ℕ) (hv : 2 ≤ v) (hh : 1 ≤ h) :
    (triListClosed v h ((1 + (v - 1) * (h + 1) + 1 : ℕ) : ℤ)).map
        (canonTriangle h) =
      (gridTris v h).map (encodeTriangle v h) := by
  have hTop : List.map (canonTriangle h) (List.map topCapTri (List.range h)) =
      List.map (encodeTriangle v h)
        (List.map (gridTopTri h) (List.range h)) := by
    rw [List.map_map, List.map_map]
    exact List.map_congr_left
      (fun i hi => canonTri_topCap v h i hh (List.mem_range.mp hi))
  have hBot : List.map (canonTriangle h)
      (List.map (botCapTri ((1 + (v - 1) * (h + 1) + 1 : ℕ) : ℤ))
        (List.range h)) =
      List.map (encodeTriangle v h)
        (List.map (gridBotTri v h) (List.range h)) := by
    rw [List.map_map, List.map_map]
    exact List.map_congr_left
      (fun i hi => canonTri_botCap v h i hv hh (List.mem_range.mp hi))
  have hBand : ∀ j, List.map (canonTriangle h) (bandList h j) =
      List.map (encodeTriangle v h) (gridBandList h j) := by
    intro j
    unfold bandList gridBandList
    rw [List.map_flatten, List.map_flatten, List.map_map, List.map_map]
    congr 1
    refine List.map_congr_left ?_
    intro i hi
    show List.map (canonTriangle h) [bandTriA h j i, bandTriB h j i] =
      List.map (encodeTriangle v h) [gridBandTriA h j i, gridBandTriB h j i]
    simp only [List.map_cons, List.map_nil]
    rw [canonTri_bandA v h j i hh (List.mem_range.mp hi),
      canonTri_bandB v h j i hh (List.mem_range.mp hi)]
  have hMid : List.map (canonTriangle h)
      ((List.map (bandList h) (List.range (v - 2))).flatten) =
      List.map (encodeTriangle v h)
        ((List.map (gridBandList h) (List.range (v - 2))).flatten) := by
    rw [List.map_flatten, List.map_flatten, List.map_map, List.map_map]
    congr 1
    exact List.map_congr_left (fun j _ => hBand j)
  unfold triListClosed gridTris
  rw [List.map_append, List.map_append, List.map_append, List.map_append,
    hTop, hMid, hBot]

/-- The three directed edges of a grid triangle. -/
def gvEdges (t : GV × GV × GV) : List (GV × GV) :=
  [(t.1, t.2.1), (t.2.1, t.2.2), (t.2.2, t.1)]

/-- All directed edges of the canonical grid mesh. -/
def gridEdges (v h : ℕ) : List (GV × GV) :=
  (gridTris v h).flatMap gvEdges

theorem sum_map_add {α : Type} (l : List α) (f g : α → ℕ) :
    (l.map (fun x => f x + g x)).sum = (l.map f).sum + (l.map g).sum := by
  induction l with
  | nil => rfl
  | cons a l ih => simp [ih]; ring

/-- Summing an indicator of `f i = c` over `range m` for `f` injective on
`range m`: 1 if some `i < m` hits `c`, else 0. -/
theorem sum_ite_mem (m : ℕ) (f : ℕ → ℕ) (c : ℕ)
    (hinj : ∀ i < m, ∀ i' < m, f i = f i' → i = i') :
    ((List.range m).map (fun i => if f i = c then 1 else 0)).sum =
      if ∃ i, i < m ∧ f i = c then 1 else 0 := by
  induction m with
  | zero => simp
  | succ m ih =>
      rw [List.range_succ, List.map_append, List.sum_append]
      rw [ih (fun i hi i' hi' hf => hinj i (by omega) i' (by omega) hf)]
      by_cases hm : f m = c
      · have hnone : ¬ ∃ i, i < m ∧ f i = c := by
          rintro ⟨i, hi, hfi⟩
          have := hinj i (by omega) m (by omega) (hfi.trans hm.symm)
          omega
        rw [if_neg hnone]
        simp only [List.map_cons, List.map_nil, List.sum_cons, List.sum_nil,
          if_pos hm]
        rw [if_pos ⟨m, by omega, hm⟩]
        omega
      · simp only [List.map_cons, List.map_nil, List.sum_cons, List.sum_nil,
          if_neg hm]
        by_cases hex : ∃ i, i < m ∧ f i = c
        · obtain ⟨i, hi, hfi⟩ := hex
          rw [if_pos ⟨i, hi, hfi⟩, if_pos ⟨i, by omega, hfi⟩]
          omega
        · rw [if_neg hex, if_neg (by
            rintro ⟨i, hi, hfi⟩
            rcases Nat.lt_succ_iff_lt_or_eq.mp hi with hlt | heq
            · exact hex ⟨i, hlt, hfi⟩
            · subst heq; exact hm hfi)]
          omega

/-- Summing `if i = a ∧ P i` over `range m`. -/
theorem sum_ite_and (m a : ℕ) (P : ℕ → Prop) [DecidablePred P] :
    ((List.range m).map (fun i => if i = a ∧ P i then 1 else 0)).sum =
      if a < m ∧ P a then 1 else 0 := by
  induction m with
  | zero => simp
  | succ m ih =>
      rw [List.range_succ, List.map_append, List.sum_append, ih]
      simp only [List.map_cons, List.map_nil, List.sum_cons, List.sum_nil]
      by_cases hma : m = a
      · subst hma
        by_cases hP : P m
        · rw [if_neg (by rintro ⟨hc, -⟩; omega), if_pos ⟨rfl, hP⟩,
            if_pos ⟨by omega, hP⟩]
          omega
        · rw [if_neg (by rintro ⟨-, hc⟩; exact hP hc),
            if_neg (by rintro ⟨-, hc⟩; exact hP hc),
            if_neg (by rintro ⟨-, hc⟩; exact hP hc)]
          omega
      · by_cases hlt : a < m ∧ P a
        · rw [if_pos hlt, if_neg (by rintro ⟨hc, -⟩; exact hma hc),
            if_pos ⟨by omega, hlt.2⟩]
          omega
        · rw [if_neg hlt, if_neg (by rintro ⟨hc, -⟩; exact hma hc),
            if_neg (by rintro ⟨hc1, hc2⟩; exact hlt ⟨by omega, hc2⟩)]
          omega

theorem succ_mod_inj (h : ℕ) (hh : 1 ≤ h) :
    ∀ i < h, ∀ i' < h, (i + 1) % h = (i' + 1) % h → i = i' := by
  intro i hi i' hi' heq
  by_cases h1 : i = h - 1 <;> by_cases h2 : i' = h - 1
  · omega
  · have e1 : (i + 1) % h = 0 := by
      have : i + 1 = h := by omega
      rw [this, Nat.mod_self]
    have e2 : (i' + 1) % h = i' + 1 := Nat.mod_eq_of_lt (by omega)
    omega
  · have e1 : (i + 1) % h = i + 1 := Nat.mod_eq_of_lt (by omega)
    have e2 : (i' + 1) % h = 0 := by
      have : i' + 1 = h := by omega
      rw [this, Nat.mod_self]
    omega
  · have e1 : (i + 1) % h = i + 1 := Nat.mod_eq_of_lt (by omega)
    have e2 : (i' + 1) % h = i' + 1 := Nat.mod_eq_of_lt (by omega)
    omega

theorem succ_mod_surj (h c : ℕ) (hh : 1 ≤ h) :
    (∃ i, i < h ∧ (i + 1) % h = c) ↔ c < h := by
  constructor
  · rintro ⟨i, hi, rfl⟩
    exact Nat.mod_lt _ (by omega)
  · intro hc
    by_cases hc0 : c = 0
    · refine ⟨h - 1, by omega, ?_⟩
      have : h - 1 + 1 = h := by omega
      rw [this, Nat.mod_self, hc0]
    · refine ⟨c - 1, by omega, ?_⟩
      have : c - 1 + 1 = c := by omega
      rw [this, Nat.mod_eq_of_lt hc]

theorem sub_mod_inj (h : ℕ) (hh : 1 ≤ h) :
    ∀ i < h, ∀ i' < h, (h - i) % h = (h - i') % h → i = i' := by
  intro i hi i' hi' heq
  by_cases h1 : i = 0 <;> by_cases h2 : i' = 0
  · omega
  · rw [h1, Nat.sub_zero, Nat.mod_self,
      Nat.mod_eq_of_lt (by omega : h - i' < h)] at heq
    omega
  · rw [h2, Nat.sub_zero, Nat.mod_self,
      Nat.mod_eq_of_lt (by omega : h - i < h)] at heq
    omega
  · rw [Nat.mod_eq_of_lt (by omega : h - i < h),
      Nat.mod_eq_of_lt (by omega : h - i' < h)] at heq
    omega

theorem sub_mod_surj (h c : ℕ) (hh : 1 ≤ h) :
    (∃ i, i < h ∧ (h - i) % h = c) ↔ c < h := by
  constructor
  · rintro ⟨i, hi, rfl⟩
    exact Nat.mod_lt _ (by omega)
  · intro hc
    by_cases hc0 : c = 0
    · exact ⟨0, by omega, by rw [Nat.sub_zero, Nat.mod_self, hc0]⟩
    · refine ⟨h - c, by omega, ?_⟩
      have : h - (h - c) = c := by omega
      rw [this, Nat.mod_eq_of_lt hc]

theorem sub1_inj (h : ℕ) :
    ∀ i < h, ∀ i' < h, h - 1 - i = h - 1 - i' → i = i' := by
  intro i hi i' hi' heq
  omega

theorem sub1_surj (h c : ℕ) (hh : 1 ≤ h) :
    (∃ i, i < h ∧ h - 1 - i = c) ↔ c < h := by
  constructor
  · rintro ⟨i, hi, rfl⟩
    omega
  · intro hc
    exact ⟨h - 1 - c, by omega, by omega⟩

/-- Directed edges contributed by the top cap. -/
def topPred (h : ℕ) : GV × GV → Prop
  | (.north, .ring j c) => j = 0 ∧ c < h
  | (.ring j c, .north) => j = 0 ∧ c < h
  | (.ring j c, .ring j2 c2) => j = 0 ∧ j2 = 0 ∧ c < h ∧ c2 = (c + 1) % h
  | _ => False

/-- Directed edges contributed by the middle bands: verticals (both
directions), the quad diagonal (both directions), the leftward edges of
rings `0..v-3` and the rightward edges of rings `1..v-2`. -/
def midPred (v h : ℕ) : GV × GV → Prop
  | (.ring a ca, .ring b cb) =>
      (b = a + 1 ∧ b ≤ v - 2 ∧ ca < h ∧ cb = ca)
      ∨ (a = b + 1 ∧ a ≤ v - 2 ∧ ca < h ∧ cb = (ca + 1) % h)
      ∨ (a = b ∧ a < v - 2 ∧ cb < h ∧ ca = (cb + 1) % h)
      ∨ (b = a + 1 ∧ b ≤ v - 2 ∧ cb < h ∧ ca = (cb + 1) % h)
      ∨ (a = b ∧ 1 ≤ a ∧ a ≤ v - 2 ∧ ca < h ∧ cb = (ca + 1) % h)
      ∨ (a = b + 1 ∧ a ≤ v - 2 ∧ cb < h ∧ ca = cb)
  | _ => False

/-- Directed edges contributed by the bottom cap. -/
def botPred (v h : ℕ) : GV × GV → Prop
  | (.south, .ring j c) => j = v - 2 ∧ c < h
  | (.ring j c, .south) => j = v - 2 ∧ c < h
  | (.ring a ca, .ring b cb) =>
      a = v - 2 ∧ b = v - 2 ∧ cb < h ∧ ca = (cb + 1) % h
  | _ => False

theorem sum_zero_of_all {α : Type} (l : List α) (f : α → ℕ)
    (hf : ∀ x ∈ l, f x = 0) : (l.map f).sum = 0 := by
  rw [List.map_congr_left hf]
  simp

instance topPred.decidable (h : ℕ) (e : GV × GV) : Decidable (topPred h e) := by
  rcases e with ⟨x, y⟩
  cases x <;> cases y <;> (simp only [topPred]; infer_instance)

instance midPred.decidable (v h : ℕ) (e : GV × GV) :
    Decidable (midPred v h e) := by
  rcases e with ⟨x, y⟩
  cases x <;> cases y <;> (simp only [midPred]; infer_instance)

instance botPred.decidable (v h : ℕ) (e : GV × GV) :
    Decidable (botPred v h e) := by
  rcases e with ⟨x, y⟩
  cases x <;> cases y <;> (simp only [botPred]; infer_instance)

theorem count_top_edges (h : ℕ) (hh : 3 ≤ h) (e : GV × GV) :
    ((List.range h).map
      (fun i => (gvEdges (gridTopTri h i)).count e)).sum =
      if topPred h e then 1 else 0 := by
  have hsucc : ∀ c, ((List.range h).map
      (fun i => if (i + 1) % h = c then 1 else 0)).sum =
      if c < h then 1 else 0 := by
    intro c
    rw [sum_ite_mem h (fun i => (i + 1) % h) c (succ_mod_inj h (by omega))]
    by_cases hc : c < h
    · rw [if_pos ((succ_mod_surj h c (by omega)).mpr hc), if_pos hc]
    · rw [if_neg (fun hex => hc ((succ_mod_surj h c (by omega)).mp hex)),
        if_neg hc]
  have hid : ∀ c, ((List.range h).map
      (fun i => if i = c then 1 else 0)).sum = if c < h then 1 else 0 := by
    intro c
    have hone := sum_ite_and h c (fun _ => True)
    simp only [and_true] at hone
    exact hone
  obtain ⟨x, y⟩ := e
  case mk =>
  cases x <;> cases y
  case north.north => simp [gvEdges, gridTopTri, topPred, List.count_cons]
  case north.south => simp [gvEdges, gridTopTri, topPred, List.count_cons]
  case north.ring j c =>
    simp only [topPred]
    simp [gvEdges, gridTopTri, List.count_cons]
    by_cases hj : j = 0
    · subst hj
      simp only [eq_self_iff_true, true_and]
      rw [hid c]
    · rw [if_neg (by rintro ⟨hc, -⟩; exact hj hc)]
      exact sum_zero_of_all _ _ (fun i _ => by
        rw [if_neg (by rintro ⟨hc, -⟩; exact hj hc.symm)])
  case south.north => simp [gvEdges, gridTopTri, topPred, List.count_cons]
  case south.south => simp [gvEdges, gridTopTri, topPred, List.count_cons]
  case south.ring j c => simp [gvEdges, gridTopTri, topPred, List.count_cons]
  case ring.north j c =>
    simp only [topPred]
    simp [gvEdges, gridTopTri, List.count_cons]
    by_cases hj : j = 0
    · subst hj
      simp only [eq_self_iff_true, true_and]
      rw [hsucc c]
    · rw [if_neg (by rintro ⟨hc, -⟩; exact hj hc)]
      exact sum_zero_of_all _ _ (fun i _ => by
        rw [if_neg (by rintro ⟨hc, -⟩; exact hj hc.symm)])
  case ring.south j c => simp [gvEdges, gridTopTri, topPred, List.count_cons]
  case ring.ring a ca b cb =>
    simp only [topPred]
    simp [gvEdges, gridTopTri, List.count_cons]
    by_cases ha : a = 0
    · by_cases hb : b = 0
      · subst ha; subst hb
        simp only [eq_self_iff_true, true_and]
        rw [sum_ite_and h ca (fun i => (i + 1) % h = cb)]
        by_cases hca : ca < h ∧ (ca + 1) % h = cb
        · rw [if_pos hca, if_pos ⟨hca.1, hca.2.symm⟩]
        · rw [if_neg hca, if_neg (fun hc => hca ⟨hc.1, hc.2.symm⟩)]
      · rw [if_neg (by rintro ⟨-, hc, -⟩; exact hb hc)]
        exact sum_zero_of_all _ _ (fun i _ => by
          rw [if_neg (by rintro ⟨-, hc, -⟩; exact hb hc.symm)])
    · rw [if_neg (by rintro ⟨hc, -⟩; exact ha hc)]
      exact sum_zero_of_all _ _ (fun i _ => by
        rw [if_neg (by rintro ⟨⟨hc, -⟩, -⟩; exact ha hc.symm)])

theorem count_bot_edges (v h : ℕ) (hh : 3 ≤ h) (e : GV × GV) :
    ((List.range h).map
      (fun i => (gvEdges (gridBotTri v h i)).count e)).sum =
      if botPred v h e then 1 else 0 := by
  have hsubmod : ∀ c, ((List.range h).map
      (fun i => if (h - i) % h = c then 1 else 0)).sum =
      if c < h then 1 else 0 := by
    intro c
    rw [sum_ite_mem h (fun i => (h - i) % h) c (sub_mod_inj h (by omega))]
    by_cases hc : c < h
    · rw [if_pos ((sub_mod_surj h c (by omega)).mpr hc), if_pos hc]
    · rw [if_neg (fun hex => hc ((sub_mod_surj h c (by omega)).mp hex)),
        if_neg hc]
  have hsub1 : ∀ c, ((List.range h).map
      (fun i => if h - 1 - i = c then 1 else 0)).sum =
      if c < h then 1 else 0 := by
    intro c
    rw [sum_ite_mem h (fun i => h - 1 - i) c (sub1_inj h)]
    by_cases hc : c < h
    · rw [if_pos ((sub1_surj h c (by omega)).mpr hc), if_pos hc]
    · rw [if_neg (fun hex => hc ((sub1_surj h c (by omega)).mp hex)),
        if_neg hc]
  obtain ⟨x, y⟩ := e
  case mk =>
  cases x <;> cases y
  case north.north => simp [gvEdges, gridBotTri, botPred, List.count_cons]
  case north.south => simp [gvEdges, gridBotTri, botPred, List.count_cons]
  case north.ring j c => simp [gvEdges, gridBotTri, botPred, List.count_cons]
  case south.north => simp [gvEdges, gridBotTri, botPred, List.count_cons]
  case south.south => simp [gvEdges, gridBotTri, botPred, List.count_cons]
  case south.ring j c =>
    simp only [botPred]
    simp [gvEdges, gridBotTri, List.count_cons]
    by_cases hj : j = v - 2
    · subst hj
      simp only [eq_self_iff_true, true_and]
      rw [hsubmod c]
    · rw [if_neg (by rintro ⟨hc, -⟩; exact hj hc)]
      exact sum_zero_of_all _ _ (fun i _ => by
        rw [if_neg (by rintro ⟨hc, -⟩; exact hj hc.symm)])
  case ring.north j c => simp [gvEdges, gridBotTri, botPred, List.count_cons]
  case ring.south j c =>
    simp only [botPred]
    simp [gvEdges, gridBotTri, List.count_cons]
    by_cases hj : j = v - 2
    · subst hj
      simp only [eq_self_iff_true, true_and]
      rw [hsub1 c]
    · rw [if_neg (by rintro ⟨hc, -⟩; exact hj hc)]
      exact sum_zero_of_all _ _ (fun i _ => by
        rw [if_neg (by rintro ⟨hc, -⟩; exact hj hc.symm)])
  case ring.ring a ca b cb =>
    simp only [botPred]
    simp [gvEdges, gridBotTri, List.count_cons]
    by_cases ha : a = v - 2
    · by_cases hb : b = v - 2
      · subst ha; subst hb
        simp only [eq_self_iff_true, true_and]
        have hpt : ∀ i ∈ List.range h,
            (if (h - i) % h = ca ∧ h - 1 - i = cb then 1 else 0) =
            (if i = h - 1 - cb ∧ (cb < h ∧ ca = (cb + 1) % h) then 1 else 0) := by
          intro i hi
          have hih : i < h := List.mem_range.mp hi
          congr 1
          rw [eq_iff_iff]
          constructor
          · rintro ⟨hca, hcb⟩
            have hcbh : cb < h := by omega
            refine ⟨by omega, hcbh, ?_⟩
            have : h - i = cb + 1 := by omega
            rw [← hca, this]
          · rintro ⟨hieq, hcbh, hca⟩
            have h1 : h - 1 - i = cb := by omega
            have h2 : h - i = cb + 1 := by omega
            exact ⟨by rw [h2, ← hca], h1⟩
        rw [List.map_congr_left hpt,
          sum_ite_and h (h - 1 - cb) (fun _ => cb < h ∧ ca = (cb + 1) % h)]
        by_cases hq : cb < h ∧ ca = (cb + 1) % h
        · rw [if_pos ⟨by omega, hq⟩, if_pos hq]
        · rw [if_neg (by rintro ⟨-, hc⟩; exact hq hc), if_neg hq]
      · rw [if_neg (by rintro ⟨-, hc, -⟩; exact hb hc)]
        exact sum_zero_of_all _ _ (fun i _ => by
          rw [if_neg (by rintro ⟨⟨-, -⟩, hc, -⟩; exact hb hc.symm)])
    · rw [if_neg (by rintro ⟨hc, -⟩; exact ha hc)]
      exact sum_zero_of_all _ _ (fun i _ => by
        rw [if_neg (by rintro ⟨⟨hc, -⟩, -⟩; exact ha hc.symm)])

theorem sum_ite_succ_mod (h : ℕ) (hh : 1 ≤ h) (c : ℕ) :
    ((List.range h).map (fun i => if (i + 1) % h = c then 1 else 0)).sum =
      if c < h then 1 else 0 := by
  rw [sum_ite_mem h (fun i => (i + 1) % h) c (succ_mod_inj h hh)]
  by_cases hc : c < h
  · rw [if_pos ((succ_mod_surj h c hh).mpr hc), if_pos hc]
  · rw [if_neg (fun hex => hc ((succ_mod_surj h c hh).mp hex)), if_neg hc]

theorem count_triple (x1 x2 x3 e : GV × GV) :
    ([x1, x2, x3] : List (GV × GV)).count e =
      (if x1 = e then 1 else 0) + (if x2 = e then 1 else 0) +
        (if x3 = e then 1 else 0) := by
  simp only [List.count_cons, List.count_nil, beq_iff_eq]
  ring

theorem band_inner1 (h a ca b cb j : ℕ) :
    ((List.range h).map (fun i =>
      if ((GV.ring j i, GV.ring (j + 1) i) : GV × GV) =
          (GV.ring a ca, GV.ring b cb) then 1 else 0)).sum =
      if j = a ∧ j + 1 = b ∧ ca < h ∧ ca = cb then 1 else 0 := by
  by_cases hja : j = a
  · by_cases hjb : j + 1 = b
    · have hpt : ∀ i ∈ List.range h,
          (if ((GV.ring j i, GV.ring (j + 1) i) : GV × GV) =
              (GV.ring a ca, GV.ring b cb) then 1 else 0) =
          (if i = ca ∧ i = cb then 1 else 0) := by
        intro i _
        congr 1
        rw [eq_iff_iff]
        constructor
        · rintro he
          simp only [Prod.mk.injEq, GV.ring.injEq] at he
          exact ⟨he.1.2, he.2.2⟩
        · rintro ⟨h1, h2⟩
          simp only [Prod.mk.injEq, GV.ring.injEq]
          exact ⟨⟨hja, h1⟩, hjb, h2⟩
      rw [List.map_congr_left hpt, sum_ite_and h ca (fun i => i = cb)]
      by_cases hq : ca < h ∧ ca = cb
      · rw [if_pos hq, if_pos ⟨hja, hjb, hq.1, hq.2⟩]
      · rw [if_neg hq, if_neg (by rintro ⟨-, -, q1, q2⟩; exact hq ⟨q1, q2⟩)]
    · rw [if_neg (by rintro ⟨-, hc, -⟩; exact hjb hc)]
      exact sum_zero_of_all _ _ (fun i _ => by
        rw [if_neg (fun he => by
          simp only [Prod.mk.injEq, GV.ring.injEq] at he
          exact hjb he.2.1)])
  · rw [if_neg (by rintro ⟨hc, -⟩; exact hja hc)]
    exact sum_zero_of_all _ _ (fun i _ => by
      rw [if_neg (fun he => by
        simp only [Prod.mk.injEq, GV.ring.injEq] at he
        exact hja he.1.1)])

theorem band_inner2 (h a ca b cb j : ℕ) :
    ((List.range h).map (fun i =>
      if ((GV.ring (j + 1) i, GV.ring j ((i + 1) % h)) : GV × GV) =
          (GV.ring a ca, GV.ring b cb) then 1 else 0)).sum =
      if j + 1 = a ∧ j = b ∧ ca < h ∧ (ca + 1) % h = cb then 1 else 0 := by
  by_cases hja : j + 1 = a
  · by_cases hjb : j = b
    · have hpt : ∀ i ∈ List.range h,
          (if ((GV.ring (j + 1) i, GV.ring j ((i + 1) % h)) : GV × GV) =
              (GV.ring a ca, GV.ring b cb) then 1 else 0) =
          (if i = ca ∧ (i + 1) % h = cb then 1 else 0) := by
        intro i _
        congr 1
        rw [eq_iff_iff]
        constructor
        · rintro he
          simp only [Prod.mk.injEq, GV.ring.injEq] at he
          exact ⟨he.1.2, he.2.2⟩
        · rintro ⟨h1, h2⟩
          simp only [Prod.mk.injEq, GV.ring.injEq]
          exact ⟨⟨hja, h1⟩, hjb, h2⟩
      rw [List.map_congr_left hpt,
        sum_ite_and h ca (fun i => (i + 1) % h = cb)]
      by_cases hq : ca < h ∧ (ca + 1) % h = cb
      · rw [if_pos hq, if_pos ⟨hja, hjb, hq.1, hq.2⟩]
      · rw [if_neg hq, if_neg (by rintro ⟨-, -, q1, q2⟩; exact hq ⟨q1, q2⟩)]
    · rw [if_neg (by rintro ⟨-, hc, -⟩; exact hjb hc)]
      exact sum_zero_of_all _ _ (fun i _ => by
        rw [if_neg (fun he => by
          simp only [Prod.mk.injEq, GV.ring.injEq] at he
          exact hjb he.2.1)])
  · rw [if_neg (by rintro ⟨hc, -⟩; exact hja hc)]
    exact sum_zero_of_all _ _ (fun i _ => by
      rw [if_neg (fun he => by
        simp only [Prod.mk.injEq, GV.ring.injEq] at he
        exact hja he.1.1)])

theorem band_inner3 (h a ca b cb j : ℕ) :
    ((List.range h).map (fun i =>
      if ((GV.ring j ((i + 1) % h), GV.ring j i) : GV × GV) =
          (GV.ring a ca, GV.ring b cb) then 1 else 0)).sum =
      if j = a ∧ j = b ∧ cb < h ∧ (cb + 1) % h = ca then 1 else 0 := by
  by_cases hja : j = a
  · by_cases hjb : j = b
    · have hpt : ∀ i ∈ List.range h,
          (if ((GV.ring j ((i + 1) % h), GV.ring j i) : GV × GV) =
              (GV.ring a ca, GV.ring b cb) then 1 else 0) =
          (if i = cb ∧ (i + 1) % h = ca then 1 else 0) := by
        intro i _
        congr 1
        rw [eq_iff_iff]
        constructor
        · rintro he
          simp only [Prod.mk.injEq, GV.ring.injEq] at he
          exact ⟨he.2.2, he.1.2⟩
        · rintro ⟨h1, h2⟩
          simp only [Prod.mk.injEq, GV.ring.injEq]
          exact ⟨⟨hja, h2⟩, hjb, h1⟩
      rw [List.map_congr_left hpt,
        sum_ite_and h cb (fun i => (i + 1) % h = ca)]
      by_cases hq : cb < h ∧ (cb + 1) % h = ca
      · rw [if_pos hq, if_pos ⟨hja, hjb, hq.1, hq.2⟩]
      · rw [if_neg hq, if_neg (by rintro ⟨-, -, q1, q2⟩; exact hq ⟨q1, q2⟩)]
    · rw [if_neg (by rintro ⟨-, hc, -⟩; exact hjb hc)]
      exact sum_zero_of_all _ _ (fun i _ => by
        rw [if_neg (fun he => by
          simp only [Prod.mk.injEq, GV.ring.injEq] at he
          exact hjb he.2.1)])
  · rw [if_neg (by rintro ⟨hc, -⟩; exact hja hc)]
    exact sum_zero_of_all _ _ (fun i _ => by
      rw [if_neg (fun he => by
        simp only [Prod.mk.injEq, GV.ring.injEq] at he
        exact hja he.1.1)])

theorem band_inner4 (h a ca b cb j : ℕ) :
    ((List.range h).map (fun i =>
      if ((GV.ring j ((i + 1) % h), GV.ring (j + 1) i) : GV × GV) =
          (GV.ring a ca, GV.ring b cb) then 1 else 0)).sum =
      if j = a ∧ j + 1 = b ∧ cb < h ∧ (cb + 1) % h = ca then 1 else 0 := by
  by_cases hja : j = a
  · by_cases hjb : j + 1 = b
    · have hpt : ∀ i ∈ List.range h,
          (if ((GV.ring j ((i + 1) % h), GV.ring (j + 1) i) : GV × GV) =
              (GV.ring a ca, GV.ring b cb) then 1 else 0) =
          (if i = cb ∧ (i + 1) % h = ca then 1 else 0) := by
        intro i _
        congr 1
        rw [eq_iff_iff]
        constructor
        · rintro he
          simp only [Prod.mk.injEq, GV.ring.injEq] at he
          exact ⟨he.2.2, he.1.2⟩
        · rintro ⟨h1, h2⟩
          simp only [Prod.mk.injEq, GV.ring.injEq]
          exact ⟨⟨hja, h2⟩, hjb, h1⟩
      rw [List.map_congr_left hpt,
        sum_ite_and h cb (fun i => (i + 1) % h = ca)]
      by_cases hq : cb < h ∧ (cb + 1) % h = ca
      · rw [if_pos hq, if_pos ⟨hja, hjb, hq.1, hq.2⟩]
      · rw [if_neg hq, if_neg (by rintro ⟨-, -, q1, q2⟩; exact hq ⟨q1, q2⟩)]
    · rw [if_neg (by rintro ⟨-, hc, -⟩; exact hjb hc)]
      exact sum_zero_of_all _ _ (fun i _ => by
        rw [if_neg (fun he => by
          simp only [Prod.mk.injEq, GV.ring.injEq] at he
          exact hjb he.2.1)])
  · rw [if_neg (by rintro ⟨hc, -⟩; exact hja hc)]
    exact sum_zero_of_all _ _ (fun i _ => by
      rw [if_neg (fun he => by
        simp only [Prod.mk.injEq, GV.ring.injEq] at he
        exact hja he.1.1)])

theorem band_inner5 (h a ca b cb j : ℕ) :
    ((List.range h).map (fun i =>
      if ((GV.ring (j + 1) i, GV.ring (j + 1) ((i + 1) % h)) : GV × GV) =
          (GV.ring a ca, GV.ring b cb) then 1 else 0)).sum =
      if j + 1 = a ∧ j + 1 = b ∧ ca < h ∧ (ca + 1) % h = cb then 1 else 0 := by
  by_cases hja : j + 1 = a
  · by_cases hjb : j + 1 = b
    · have hpt : ∀ i ∈ List.range h,
          (if ((GV.ring (j + 1) i, GV.ring (j + 1) ((i + 1) % h)) : GV × GV) =
              (GV.ring a ca, GV.ring b cb) then 1 else 0) =
          (if i = ca ∧ (i + 1) % h = cb then 1 else 0) := by
        intro i _
        congr 1
        rw [eq_iff_iff]
        constructor
        · rintro he
          simp only [Prod.mk.injEq, GV.ring.injEq] at he
          exact ⟨he.1.2, he.2.2⟩
        · rintro ⟨h1, h2⟩
          simp only [Prod.mk.injEq, GV.ring.injEq]
          exact ⟨⟨hja, h1⟩, hjb, h2⟩
      rw [List.map_congr_left hpt,
        sum_ite_and h ca (fun i => (i + 1) % h = cb)]
      by_cases hq : ca < h ∧ (ca + 1) % h = cb
      · rw [if_pos hq, if_pos ⟨hja, hjb, hq.1, hq.2⟩]
      · rw [if_neg hq, if_neg (by rintro ⟨-, -, q1, q2⟩; exact hq ⟨q1, q2⟩)]
    · rw [if_neg (by rintro ⟨-, hc, -⟩; exact hjb hc)]
      exact sum_zero_of_all _ _ (fun i _ => by
        rw [if_neg (fun he => by
          simp only [Prod.mk.injEq, GV.ring.injEq] at he
          exact hjb he.2.1)])
  · rw [if_neg (by rintro ⟨hc, -⟩; exact hja hc)]
    exact sum_zero_of_all _ _ (fun i _ => by
      rw [if_neg (fun he => by
        simp only [Prod.mk.injEq, GV.ring.injEq] at he
        exact hja he.1.1)])

theorem band_inner6 (h : ℕ) (hh : 1 ≤ h) (a ca b cb j : ℕ) :
    ((List.range h).map (fun i =>
      if ((GV.ring (j + 1) ((i + 1) % h), GV.ring j ((i + 1) % h)) : GV × GV) =
          (GV.ring a ca, GV.ring b cb) then 1 else 0)).sum =
      if j + 1 = a ∧ j = b ∧ ca < h ∧ ca = cb then 1 else 0 := by
  by_cases hja : j + 1 = a
  · by_cases hjb : j = b
    · by_cases hcc : ca = cb
      · have hpt : ∀ i ∈ List.range h,
            (if ((GV.ring (j + 1) ((i + 1) % h),
                GV.ring j ((i + 1) % h)) : GV × GV) =
                (GV.ring a ca, GV.ring b cb) then 1 else 0) =
            (if (i + 1) % h = ca then 1 else 0) := by
          intro i _
          congr 1
          rw [eq_iff_iff]
          constructor
          · rintro he
            simp only [Prod.mk.injEq, GV.ring.injEq] at he
            exact he.1.2
          · rintro h1
            simp only [Prod.mk.injEq, GV.ring.injEq]
            exact ⟨⟨hja, h1⟩, hjb, hcc ▸ h1⟩
        rw [List.map_congr_left hpt, sum_ite_succ_mod h hh ca]
        by_cases hq : ca < h
        · rw [if_pos hq, if_pos ⟨hja, hjb, hq, hcc⟩]
        · rw [if_neg hq, if_neg (by rintro ⟨-, -, q1, -⟩; exact hq q1)]
      · rw [if_neg (by rintro ⟨-, -, -, hc⟩; exact hcc hc)]
        exact sum_zero_of_all _ _ (fun i _ => by
          rw [if_neg (fun he => by
            simp only [Prod.mk.injEq, GV.ring.injEq] at he
            exact hcc (he.1.2.symm.trans he.2.2))])
    · rw [if_neg (by rintro ⟨-, hc, -⟩; exact hjb hc)]
      exact sum_zero_of_all _ _ (fun i _ => by
        rw [if_neg (fun he => by
          simp only [Prod.mk.injEq, GV.ring.injEq] at he
          exact hjb he.2.1)])
  · rw [if_neg (by rintro ⟨hc, -⟩; exact hja hc)]
    exact sum_zero_of_all _ _ (fun i _ => by
      rw [if_neg (fun he => by
        simp only [Prod.mk.injEq, GV.ring.injEq] at he
        exact hja he.1.1)])

theorem succ_mod_ne (h c : ℕ) (hh : 2 ≤ h) (hc : c < h) : (c + 1) % h ≠ c := by
  by_cases hc1 : c = h - 1
  · have : c + 1 = h := by omega
    rw [this, Nat.mod_self]
    omega
  · rw [Nat.mod_eq_of_lt (by omega)]
    omega

theorem succ_mod_succ_ne (h c : ℕ) (hh : 3 ≤ h) (hc : c < h) :
    ((c + 1) % h + 1) % h ≠ c := by
  by_cases hc1 : c = h - 1
  · have e1 : c + 1 = h := by omega
    rw [e1, Nat.mod_self, Nat.mod_eq_of_lt (by omega)]
    omega
  · rw [Nat.mod_eq_of_lt (by omega : c + 1 < h)]
    by_cases hc2 : c = h - 2
    · have e2 : c + 1 + 1 = h := by omega
      rw [e2, Nat.mod_self]
      omega
    · rw [Nat.mod_eq_of_lt (by omega)]
      omega

theorem band_inner_count (h : ℕ) (hh : 1 ≤ h) (a ca b cb j : ℕ) :
    ((List.range h).map (fun i =>
      (gvEdges (gridBandTriA h j i)).count
        ((GV.ring a ca, GV.ring b cb) : GV × GV) +
      (gvEdges (gridBandTriB h j i)).count
        ((GV.ring a ca, GV.ring b cb) : GV × GV))).sum =
      (if j = a ∧ j + 1 = b ∧ ca < h ∧ ca = cb then 1 else 0) +
      (if j + 1 = a ∧ j = b ∧ ca < h ∧ (ca + 1) % h = cb then 1 else 0) +
      (if j = a ∧ j = b ∧ cb < h ∧ (cb + 1) % h = ca then 1 else 0) +
      (if j = a ∧ j + 1 = b ∧ cb < h ∧ (cb + 1) % h = ca then 1 else 0) +
      (if j + 1 = a ∧ j + 1 = b ∧ ca < h ∧ (ca + 1) % h = cb then 1 else 0) +
      (if j + 1 = a ∧ j = b ∧ ca < h ∧ ca = cb then 1 else 0) := by
  have hpt : ∀ i ∈ List.range h,
      (gvEdges (gridBandTriA h j i)).count
        ((GV.ring a ca, GV.ring b cb) : GV × GV) +
      (gvEdges (gridBandTriB h j i)).count
        ((GV.ring a ca, GV.ring b cb) : GV × GV) =
      ((if ((GV.ring j i, GV.ring (j + 1) i) : GV × GV) =
          (GV.ring a ca, GV.ring b cb) then 1 else 0) +
        (if ((GV.ring (j + 1) i, GV.ring j ((i + 1) % h)) : GV × GV) =
          (GV.ring a ca, GV.ring b cb) then 1 else 0) +
        (if ((GV.ring j ((i + 1) % h), GV.ring j i) : GV × GV) =
          (GV.ring a ca, GV.ring b cb) then 1 else 0)) +
      ((if ((GV.ring j ((i + 1) % h), GV.ring (j + 1) i) : GV × GV) =
          (GV.ring a ca, GV.ring b cb) then 1 else 0) +
        (if ((GV.ring (j + 1) i, GV.ring (j + 1) ((i + 1) % h)) : GV × GV) =
          (GV.ring a ca, GV.ring b cb) then 1 else 0) +
        (if ((GV.ring (j + 1) ((i + 1) % h), GV.ring j ((i + 1) % h)) : GV × GV) =
          (GV.ring a ca, GV.ring b cb) then 1 else 0)) := by
    intro i _
    rw [show gvEdges (gridBandTriA h j i) =
      [((GV.ring j i, GV.ring (j + 1) i) : GV × GV),
       (GV.ring (j + 1) i, GV.ring j ((i + 1) % h)),
       (GV.ring j ((i + 1) % h), GV.ring j i)] from rfl]
    rw [show gvEdges (gridBandTriB h j i) =
      [((GV.ring j ((i + 1) % h), GV.ring (j + 1) i) : GV × GV),
       (GV.ring (j + 1) i, GV.ring (j + 1) ((i + 1) % h)),
       (GV.ring (j + 1) ((i + 1) % h), GV.ring j ((i + 1) % h))] from rfl]
    rw [count_triple, count_triple]
  rw [List.map_congr_left hpt, sum_map_add, sum_map_add, sum_map_add,
    sum_map_add, sum_map_add]
  rw [band_inner1 h a ca b cb j, band_inner2 h a ca b cb j,
    band_inner3 h a ca b cb j, band_inner4 h a ca b cb j,
    band_inner5 h a ca b cb j, band_inner6 h hh a ca b cb j]
  ring

theorem count_mid_edges (v h : ℕ) (hh : 3 ≤ h) (e : GV × GV) :
    ((List.range (v - 2)).map (fun j =>
      ((List.range h).map (fun i =>
        (gvEdges (gridBandTriA h j i)).count e +
        (gvEdges (gridBandTriB h j i)).count e)).sum)).sum =
      if midPred v h e then 1 else 0 := by
  obtain ⟨x, y⟩ := e
  case mk =>
  cases x <;> cases y
  case north.north =>
    simp [gvEdges, gridBandTriA, gridBandTriB, midPred, List.count_cons]
  case north.south =>
    simp [gvEdges, gridBandTriA, gridBandTriB, midPred, List.count_cons]
  case north.ring j c =>
    simp [gvEdges, gridBandTriA, gridBandTriB, midPred, List.count_cons]
  case south.north =>
    simp [gvEdges, gridBandTriA, gridBandTriB, midPred, List.count_cons]
  case south.south =>
    simp [gvEdges, gridBandTriA, gridBandTriB, midPred, List.count_cons]
  case south.ring j c =>
    simp [gvEdges, gridBandTriA, gridBandTriB, midPred, List.count_cons]
  case ring.north j c =>
    simp [gvEdges, gridBandTriA, gridBandTriB, midPred, List.count_cons]
  case ring.south j c =>
    simp [gvEdges, gridBandTriA, gridBandTriB, midPred, List.count_cons]
  case ring.ring a ca b cb =>
    have houter : ∀ j ∈ List.range (v - 2),
        ((List.range h).map (fun i =>
          (gvEdges (gridBandTriA h j i)).count
            ((GV.ring a ca, GV.ring b cb) : GV × GV) +
          (gvEdges (gridBandTriB h j i)).count
            ((GV.ring a ca, GV.ring b cb) : GV × GV))).sum =
        (if j = a ∧ j + 1 = b ∧ ca < h ∧ ca = cb then 1 else 0) +
        (if j + 1 = a ∧ j = b ∧ ca < h ∧ (ca + 1) % h = cb then 1 else 0) +
        (if j = a ∧ j = b ∧ cb < h ∧ (cb + 1) % h = ca then 1 else 0) +
        (if j = a ∧ j + 1 = b ∧ cb < h ∧ (cb + 1) % h = ca then 1 else 0) +
        (if j + 1 = a ∧ j + 1 = b ∧ ca < h ∧ (ca + 1) % h = cb then 1 else 0) +
        (if j + 1 = a ∧ j = b ∧ ca < h ∧ ca = cb then 1 else 0) :=
      fun j _ => band_inner_count h (by omega) a ca b cb j
    rw [List.map_congr_left houter, sum_map_add, sum_map_add, sum_map_add,
      sum_map_add, sum_map_add]
    have hn1 : ∀ j ∈ List.range (v - 2),
        (if j = a ∧ j + 1 = b ∧ ca < h ∧ ca = cb then 1 else 0) =
        (if j = a ∧ (a + 1 = b ∧ ca < h ∧ ca = cb) then 1 else 0) := by
      intro j _
      congr 1
      rw [eq_iff_iff]
      constructor
      · rintro ⟨h1, h2, h3⟩; exact ⟨h1, by omega, h3⟩
      · rintro ⟨h1, h2, h3⟩; exact ⟨h1, by omega, h3⟩
    have hn2 : ∀ j ∈ List.range (v - 2),
        (if j + 1 = a ∧ j = b ∧ ca < h ∧ (ca + 1) % h = cb then 1 else 0) =
        (if j = b ∧ (b + 1 = a ∧ ca < h ∧ (ca + 1) % h = cb) then 1 else 0) := by
      intro j _
      congr 1
      rw [eq_iff_iff]
      constructor
      · rintro ⟨h1, h2, h3⟩; exact ⟨h2, by omega, h3⟩
      · rintro ⟨h1, h2, h3⟩; exact ⟨by omega, h1, h3⟩
    have hn3 : ∀ j ∈ List.range (v - 2),
        (if j = a ∧ j = b ∧ cb < h ∧ (cb + 1) % h = ca then 1 else 0) =
        (if j = a ∧ (a = b ∧ cb < h ∧ (cb + 1) % h = ca) then 1 else 0) := by
      intro j _
      congr 1
      rw [eq_iff_iff]
      constructor
      · rintro ⟨h1, h2, h3⟩; exact ⟨h1, by omega, h3⟩
      · rintro ⟨h1, h2, h3⟩; exact ⟨h1, by omega, h3⟩
    have hn4 : ∀ j ∈ List.range (v - 2),
        (if j = a ∧ j + 1 = b ∧ cb < h ∧ (cb + 1) % h = ca then 1 else 0) =
        (if j = a ∧ (a + 1 = b ∧ cb < h ∧ (cb + 1) % h = ca) then 1 else 0) := by
      intro j _
      congr 1
      rw [eq_iff_iff]
      constructor
      · rintro ⟨h1, h2, h3⟩; exact ⟨h1, by omega, h3⟩
      · rintro ⟨h1, h2, h3⟩; exact ⟨h1, by omega, h3⟩
    have hn5 : ∀ j ∈ List.range (v - 2),
        (if j + 1 = a ∧ j + 1 = b ∧ ca < h ∧ (ca + 1) % h = cb then 1 else 0) =
        (if j = a - 1 ∧ (1 ≤ a ∧ a = b ∧ ca < h ∧ (ca + 1) % h = cb)
          then 1 else 0) := by
      intro j _
      congr 1
      rw [eq_iff_iff]
      constructor
      · rintro ⟨h1, h2, h3⟩; exact ⟨by omega, by omega, by omega, h3⟩
      · rintro ⟨h1, h2, h3, h4⟩; exact ⟨by omega, by omega, h4⟩
    have hn6 : ∀ j ∈ List.range (v - 2),
        (if j + 1 = a ∧ j = b ∧ ca < h ∧ ca = cb then 1 else 0) =
        (if j = b ∧ (b + 1 = a ∧ ca < h ∧ ca = cb) then 1 else 0) := by
      intro j _
      congr 1
      rw [eq_iff_iff]
      constructor
      · rintro ⟨h1, h2, h3⟩; exact ⟨h2, by omega, h3⟩
      · rintro ⟨h1, h2, h3⟩; exact ⟨by omega, h1, h3⟩
    rw [List.map_congr_left hn1, List.map_congr_left hn2,
      List.map_congr_left hn3, List.map_congr_left hn4,
      List.map_congr_left hn5, List.map_congr_left hn6]
    rw [sum_ite_and (v - 2) a (fun _ => a + 1 = b ∧ ca < h ∧ ca = cb),
      sum_ite_and (v - 2) b (fun _ => b + 1 = a ∧ ca < h ∧ (ca + 1) % h = cb),
      sum_ite_and (v - 2) a (fun _ => a = b ∧ cb < h ∧ (cb + 1) % h = ca),
      sum_ite_and (v - 2) a (fun _ => a + 1 = b ∧ cb < h ∧ (cb + 1) % h = ca),
      sum_ite_and (v - 2) (a - 1)
        (fun _ => 1 ≤ a ∧ a = b ∧ ca < h ∧ (ca + 1) % h = cb),
      sum_ite_and (v - 2) b (fun _ => b + 1 = a ∧ ca < h ∧ ca = cb)]
    have hmid : midPred v h ((GV.ring a ca, GV.ring b cb) : GV × GV) ↔
        ((b = a + 1 ∧ b ≤ v - 2 ∧ ca < h ∧ cb = ca)
        ∨ (a = b + 1 ∧ a ≤ v - 2 ∧ ca < h ∧ cb = (ca + 1) % h)
        ∨ (a = b ∧ a < v - 2 ∧ cb < h ∧ ca = (cb + 1) % h)
        ∨ (b = a + 1 ∧ b ≤ v - 2 ∧ cb < h ∧ ca = (cb + 1) % h)
        ∨ (a = b ∧ 1 ≤ a ∧ a ≤ v - 2 ∧ ca < h ∧ cb = (ca + 1) % h)
        ∨ (a = b + 1 ∧ a ≤ v - 2 ∧ cb < h ∧ ca = cb)) := Iff.rfl
    by_cases hP : midPred v h ((GV.ring a ca, GV.ring b cb) : GV × GV)
    · rw [if_pos hP]
      rcases hmid.mp hP with hf | hf | hf | hf | hf | hf
      · obtain ⟨h1, h2, h3, h4⟩ := hf
        rw [if_pos ⟨by omega, by omega, h3, by omega⟩,
          if_neg (by rintro ⟨-, q, -⟩; omega),
          if_neg (by rintro ⟨-, q, -⟩; omega),
          if_neg (by
            rintro ⟨-, -, -, q⟩
            exact succ_mod_ne h cb (by omega) (by omega) (q.trans h4.symm)),
          if_neg (by rintro ⟨-, -, q, -⟩; omega),
          if_neg (by rintro ⟨-, q, -⟩; omega)]
      · obtain ⟨h1, h2, h3, h4⟩ := hf
        rw [if_neg (by rintro ⟨-, q, -⟩; omega),
          if_pos ⟨by omega, by omega, h3, h4.symm⟩,
          if_neg (by rintro ⟨-, q, -⟩; omega),
          if_neg (by rintro ⟨-, q, -⟩; omega),
          if_neg (by rintro ⟨-, -, q, -⟩; omega),
          if_neg (by
            rintro ⟨-, -, -, q⟩
            exact succ_mod_ne h ca (by omega) h3 (by rw [← h4, q]))]
      · obtain ⟨h1, h2, h3, h4⟩ := hf
        rw [if_neg (by rintro ⟨-, q, -⟩; omega),
          if_neg (by rintro ⟨-, q, -⟩; omega),
          if_pos ⟨by omega, by omega, h3, h4.symm⟩,
          if_neg (by rintro ⟨-, q, -⟩; omega),
          if_neg (by
            rintro ⟨-, -, -, -, q⟩
            exact succ_mod_succ_ne h ca hh
              (by rw [h4]; exact Nat.mod_lt _ (by omega))
              (by rw [q, ← h4])),
          if_neg (by rintro ⟨-, q, -⟩; omega)]
      · obtain ⟨h1, h2, h3, h4⟩ := hf
        rw [if_neg (by
            rintro ⟨-, -, -, q⟩
            exact succ_mod_ne h cb (by omega) h3 (by rw [← h4, ← q])),
          if_neg (by rintro ⟨-, q, -⟩; omega),
          if_neg (by rintro ⟨-, q, -⟩; omega),
          if_pos ⟨by omega, by omega, h3, h4.symm⟩,
          if_neg (by rintro ⟨-, -, q, -⟩; omega),
          if_neg (by rintro ⟨-, q, -⟩; omega)]
      · obtain ⟨h1, h2, h3, h4, h5⟩ := hf
        rw [if_neg (by rintro ⟨-, q, -⟩; omega),
          if_neg (by rintro ⟨-, q, -⟩; omega),
          if_neg (by
            rintro ⟨-, -, -, q⟩
            exact succ_mod_succ_ne h cb hh
              (by rw [h5]; exact Nat.mod_lt _ (by omega))
              (by rw [q, ← h5])),
          if_neg (by rintro ⟨-, q, -⟩; omega),
          if_pos ⟨by omega, by omega, by omega, h4, h5.symm⟩,
          if_neg (by rintro ⟨-, q, -⟩; omega)]
      · obtain ⟨h1, h2, h3, h4⟩ := hf
        rw [if_neg (by rintro ⟨-, q, -⟩; omega),
          if_neg (by
            rintro ⟨-, -, -, q⟩
            exact succ_mod_ne h ca (by omega) (by omega) (q.trans h4.symm)),
          if_neg (by rintro ⟨-, q, -⟩; omega),
          if_neg (by rintro ⟨-, q, -⟩; omega),
          if_neg (by rintro ⟨-, -, q, -⟩; omega),
          if_pos ⟨by omega, by omega, by omega, by omega⟩]
    · rw [if_neg hP]
      rw [if_neg (fun q => hP (hmid.mpr (Or.inl
          ⟨by omega, by omega, q.2.2.1, q.2.2.2.symm⟩))),
        if_neg (fun q => hP (hmid.mpr (Or.inr (Or.inl
          ⟨by omega, by omega, q.2.2.1, q.2.2.2.symm⟩)))),
        if_neg (fun q => hP (hmid.mpr (Or.inr (Or.inr (Or.inl
          ⟨by omega, by omega, q.2.2.1, q.2.2.2.symm⟩))))),
        if_neg (fun q => hP (hmid.mpr (Or.inr (Or.inr (Or.inr (Or.inl
          ⟨by omega, by omega, q.2.2.1, q.2.2.2.symm⟩)))))),
        if_neg (fun q => hP (hmid.mpr (Or.inr (Or.inr (Or.inr (Or.inr (Or.inl
          ⟨by omega, by omega, by omega, q.2.2.2.1, q.2.2.2.2.symm⟩))))))),
        if_neg (fun q => hP (hmid.mpr (Or.inr (Or.inr (Or.inr (Or.inr (Or.inr
          ⟨by omega, by omega, by omega, by omega⟩)))))))]

/-- A directed edge of the canonical grid mesh: contributed by the top
cap, a middle band, or the bottom cap. -/
def isGridEdge (v h : ℕ) (e : GV × GV) : Prop :=
  topPred h e ∨ midPred v h e ∨ botPred v h e

theorem gridEdges_count_parts (v h : ℕ) (hh : 3 ≤ h) (e : GV × GV) :
    (gridEdges v h).count e =
      ((if topPred h e then 1 else 0) + (if midPred v h e then 1 else 0)) +
        (if botPred v h e then 1 else 0) := by
  unfold gridEdges gridTris
  rw [List.flatMap_append, List.flatMap_append, List.count_append,
    List.count_append]
  congr 1
  · congr 1
    · rw [List.count_flatMap, List.map_map]
      rw [show (List.count e ∘ gvEdges) ∘ gridTopTri h =
        fun i => (gvEdges (gridTopTri h i)).count e from rfl]
      exact count_top_edges h hh e
    · rw [List.count_flatMap, List.map_flatten, List.sum_flatten,
        List.map_map, List.map_map]
      have hj : ∀ j ∈ List.range (v - 2),
          ((List.sum ∘ List.map (List.count e ∘ gvEdges)) ∘ gridBandList h) j =
          ((List.range h).map (fun i =>
            (gvEdges (gridBandTriA h j i)).count e +
            (gvEdges (gridBandTriB h j i)).count e)).sum := by
        intro j _
        show (List.map (List.count e ∘ gvEdges) (gridBandList h j)).sum = _
        unfold gridBandList
        rw [List.map_flatten, List.sum_flatten, List.map_map, List.map_map]
        refine congrArg List.sum (List.map_congr_left ?_)
        intro i _
        show (List.map (List.count e ∘ gvEdges)
          [gridBandTriA h j i, gridBandTriB h j i]).sum = _
        simp [Function.comp]
      rw [List.map_congr_left hj]
      exact count_mid_edges v h hh e
  · rw [List.count_flatMap, List.map_map]
    rw [show (List.count e ∘ gvEdges) ∘ gridBotTri v h =
      fun i => (gvEdges (gridBotTri v h i)).count e from rfl]
    exact count_bot_edges v h hh e

instance isGridEdge.decidable (v h : ℕ) (e : GV × GV) :
    Decidable (isGridEdge v h e) := by
  unfold isGridEdge
  infer_instance

theorem preds_exclusive (v h : ℕ) (hh : 3 ≤ h) (e : GV × GV) :
    ¬(topPred h e ∧ midPred v h e) ∧ ¬(topPred h e ∧ botPred v h e) ∧
      ¬(midPred v h e ∧ botPred v h e) := by
  obtain ⟨x, y⟩ := e
  case mk =>
  cases x <;> cases y
  case ring.ring a ca b cb =>
    refine ⟨?_, ?_, ?_⟩
    · rintro ⟨⟨ht1, ht2, ht3, ht4⟩, hm⟩
      simp only [midPred] at hm
      rcases hm with hf | hf | hf | hf | hf | hf
      · omega
      · omega
      · exact succ_mod_succ_ne h ca hh ht3 (by rw [← ht4, ← hf.2.2.2])
      · omega
      · omega
      · omega
    · rintro ⟨⟨ht1, ht2, ht3, ht4⟩, hb1, hb2, hb3, hb4⟩
      exact succ_mod_succ_ne h ca hh ht3 (by rw [← ht4, ← hb4])
    · rintro ⟨hm, hb1, hb2, hb3, hb4⟩
      simp only [midPred] at hm
      rcases hm with hf | hf | hf | hf | hf | hf
      · omega
      · omega
      · omega
      · omega
      · exact succ_mod_succ_ne h cb hh hb3 (by rw [← hb4, ← hf.2.2.2.2])
      · omega
  all_goals
    refine ⟨?_, ?_, ?_⟩ <;> rintro ⟨h1, h2⟩ <;>
      simp only [topPred, midPred, botPred] at h1 h2

theorem gridEdges_count (v h : ℕ) (hh : 3 ≤ h) (e : GV × GV) :
    (gridEdges v h).count e = if isGridEdge v h e then 1 else 0 := by
  rw [gridEdges_count_parts v h hh e]
  obtain ⟨hx1, hx2, hx3⟩ := preds_exclusive v h hh e
  unfold isGridEdge
  by_cases h1 : topPred h e
  · rw [if_pos h1, if_neg (fun hc => hx1 ⟨h1, hc⟩),
      if_neg (fun hc => hx2 ⟨h1, hc⟩), if_pos (Or.inl h1)]
  · rw [if_neg h1]
    by_cases h2 : midPred v h e
    · rw [if_pos h2, if_neg (fun hc => hx3 ⟨h2, hc⟩),
        if_pos (Or.inr (Or.inl h2))]
    · rw [if_neg h2]
      by_cases h3 : botPred v h e
      · rw [if_pos h3, if_pos (Or.inr (Or.inr h3))]
      · rw [if_neg h3, if_neg (by
          rintro (hc | hc | hc)
          · exact h1 hc
          · exact h2 hc
          · exact h3 hc)]

theorem isGridEdge_swap (v h : ℕ) (hh : 3 ≤ h) (x y : GV)
    (he : isGridEdge v h (x, y)) : isGridEdge v h (y, x) := by
  unfold isGridEdge at he ⊢
  cases x <;> cases y
  case north.north => simp only [topPred, midPred, botPred] at he; tauto
  case north.south => simp only [topPred, midPred, botPred] at he; tauto
  case south.north => simp only [topPred, midPred, botPred] at he; tauto
  case south.south => simp only [topPred, midPred, botPred] at he; tauto
  case north.ring j c =>
    simp only [topPred, midPred, botPred] at he ⊢
    tauto
  case ring.north j c =>
    simp only [topPred, midPred, botPred] at he ⊢
    tauto
  case south.ring j c =>
    simp only [topPred, midPred, botPred] at he ⊢
    tauto
  case ring.south j c =>
    simp only [topPred, midPred, botPred] at he ⊢
    tauto
  case ring.ring a ca b cb =>
    simp only [topPred, midPred, botPred] at he ⊢
    rcases he with ⟨ht1, ht2, ht3, ht4⟩ | hm | ⟨hb1, hb2, hb3, hb4⟩
    · by_cases hv2 : v - 2 = 0
      · exact Or.inr (Or.inr ⟨by omega, by omega, ht3, ht4⟩)
      · exact Or.inr (Or.inl (Or.inr (Or.inr (Or.inl
          ⟨by omega, by omega, ht3, ht4⟩))))
    · rcases hm with ⟨q1, q2, q3, q4⟩ | ⟨q1, q2, q3, q4⟩ | ⟨q1, q2, q3, q4⟩ |
        ⟨q1, q2, q3, q4⟩ | ⟨q1, q2, q3, q4, q5⟩ | ⟨q1, q2, q3, q4⟩
      · exact Or.inr (Or.inl (Or.inr (Or.inr (Or.inr (Or.inr (Or.inr
          ⟨q1, q2, q3, q4⟩))))))
      · exact Or.inr (Or.inl (Or.inr (Or.inr (Or.inr (Or.inl
          ⟨q1, q2, q3, q4⟩)))))
      · by_cases hb0 : b = 0
        · exact Or.inl ⟨by omega, by omega, q3, q4⟩
        · exact Or.inr (Or.inl (Or.inr (Or.inr (Or.inr (Or.inr (Or.inl
            ⟨by omega, by omega, by omega, q3, q4⟩))))))
      · exact Or.inr (Or.inl (Or.inr (Or.inl ⟨q1, q2, q3, q4⟩)))
      · by_cases ha : a < v - 2
        · exact Or.inr (Or.inl (Or.inr (Or.inr (Or.inl
            ⟨by omega, by omega, q4, q5⟩))))
        · exact Or.inr (Or.inr ⟨by omega, by omega, q4, q5⟩)
      · exact Or.inr (Or.inl (Or.inl ⟨q1, q2, q3, q4⟩))
    · by_cases hv2 : v - 2 = 0
      · exact Or.inl ⟨by omega, by omega, hb3, hb4⟩
      · exact Or.inr (Or.inl (Or.inr (Or.inr (Or.inr (Or.inr (Or.inl
          ⟨by omega, by omega, by omega, hb3, hb4⟩))))))

/-- Wellformedness of a grid vertex: ring indices lie in the grid. -/
def GVwf (v h : ℕ) : GV → Prop
  | .ring j c => j ≤ v - 2 ∧ c < h
  | _ => True

theorem gridTris_nondeg_wf (v h : ℕ) (hh : 3 ≤ h) :
    ∀ t ∈ gridTris v h,
      (t.1 ≠ t.2.1 ∧ t.2.1 ≠ t.2.2 ∧ t.2.2 ≠ t.1) ∧
        GVwf v h t.1 ∧ GVwf v h t.2.1 ∧ GVwf v h t.2.2 := by
  intro t ht
  unfold gridTris at ht
  rw [List.mem_append, List.mem_append] at ht
  rcases ht with (ht | ht) | ht
  · rw [List.mem_map] at ht
    obtain ⟨i, hi, rfl⟩ := ht
    rw [List.mem_range] at hi
    unfold gridTopTri GVwf
    refine ⟨⟨by simp, ?_, by simp⟩, trivial, ⟨by omega, hi⟩,
      ⟨by omega, Nat.mod_lt _ (by omega)⟩⟩
    simp only [ne_eq, GV.ring.injEq]
    rintro ⟨-, hc⟩
    exact succ_mod_ne h i (by omega) hi hc.symm
  · rw [List.mem_flatten] at ht
    obtain ⟨l, hl, htl⟩ := ht
    rw [List.mem_map] at hl
    obtain ⟨j, hj, rfl⟩ := hl
    rw [List.mem_range] at hj
    unfold gridBandList at htl
    rw [List.mem_flatten] at htl
    obtain ⟨l2, hl2, htl2⟩ := htl
    rw [List.mem_map] at hl2
    obtain ⟨i, hi, rfl⟩ := hl2
    rw [List.mem_range] at hi
    rcases List.mem_cons.mp htl2 with rfl | htl2
    · unfold gridBandTriA GVwf
      refine ⟨⟨?_, ?_, ?_⟩, ⟨by omega, hi⟩, ⟨by omega, hi⟩,
        ⟨by omega, Nat.mod_lt _ (by omega)⟩⟩
      · simp only [ne_eq, GV.ring.injEq]
        rintro ⟨hc, -⟩
        omega
      · simp only [ne_eq, GV.ring.injEq]
        rintro ⟨hc, -⟩
        omega
      · simp only [ne_eq, GV.ring.injEq]
        rintro ⟨-, hc⟩
        exact succ_mod_ne h i (by omega) hi hc
    · rcases List.mem_cons.mp htl2 with rfl | htl2
      · unfold gridBandTriB GVwf
        refine ⟨⟨?_, ?_, ?_⟩, ⟨by omega, Nat.mod_lt _ (by omega)⟩,
          ⟨by omega, hi⟩, ⟨by omega, Nat.mod_lt _ (by omega)⟩⟩
        · simp only [ne_eq, GV.ring.injEq]
          rintro ⟨hc, -⟩
          omega
        · simp only [ne_eq, GV.ring.injEq]
          rintro ⟨-, hc⟩
          exact succ_mod_ne h i (by omega) hi hc.symm
        · simp only [ne_eq, GV.ring.injEq]
          rintro ⟨hc, -⟩
          omega
      · cases htl2
  · rw [List.mem_map] at ht
    obtain ⟨i, hi, rfl⟩ := ht
    rw [List.mem_range] at hi
    unfold gridBotTri GVwf
    refine ⟨⟨by simp, ?_, by simp⟩, trivial,
      ⟨by omega, Nat.mod_lt _ (by omega)⟩, ⟨by omega, by omega⟩⟩
    simp only [ne_eq, GV.ring.injEq]
    rintro ⟨-, hc⟩
    by_cases hi0 : i = 0
    · subst hi0
      rw [Nat.sub_zero, Nat.mod_self] at hc
      omega
    · rw [Nat.mod_eq_of_lt (by omega)] at hc
      omega

theorem encodeGV_inj (v h : ℕ) (hv : 2 ≤ v) (hh : 3 ≤ h) (x y : GV)
    (hx : GVwf v h x) (hy : GVwf v h y) :
    encodeGV v h x = encodeGV v h y → x = y := by
  have hcv : (2 : ℤ) ≤ (v : ℤ) := by omega
  have hch : (3 : ℤ) ≤ (h : ℤ) := by omega
  cases x <;> cases y <;> intro heq <;> simp only [encodeGV] at heq
  case north.north => rfl
  case north.south =>
    exfalso
    have hp : (0 : ℤ) ≤ ((v : ℤ) - 1) * ((h : ℤ) + 1) :=
      mul_nonneg (by omega) (by omega)
    linarith
  case north.ring j c =>
    exfalso
    have hp : (0 : ℤ) ≤ (j : ℤ) * ((h : ℤ) + 1) :=
      mul_nonneg (by omega) (by omega)
    have hc0 : (0 : ℤ) ≤ (c : ℤ) := by omega
    linarith
  case south.north =>
    exfalso
    have hp : (0 : ℤ) ≤ ((v : ℤ) - 1) * ((h : ℤ) + 1) :=
      mul_nonneg (by omega) (by omega)
    linarith
  case south.south => rfl
  case south.ring j c =>
    exfalso
    unfold GVwf at hy
    have hj : (j : ℤ) ≤ (v : ℤ) - 2 := by omega
    have hc : (c : ℤ) < (h : ℤ) := by omega
    have hstep : ((h : ℤ) + 1) ≤ ((v : ℤ) - 1 - (j : ℤ)) * ((h : ℤ) + 1) := by
      have h1 : (1 : ℤ) ≤ (v : ℤ) - 1 - (j : ℤ) := by omega
      nlinarith
    have hexp : ((v : ℤ) - 1 - (j : ℤ)) * ((h : ℤ) + 1) =
        ((v : ℤ) - 1) * ((h : ℤ) + 1) - (j : ℤ) * ((h : ℤ) + 1) := by ring
    linarith
  case ring.north j c =>
    exfalso
    have hp : (0 : ℤ) ≤ (j : ℤ) * ((h : ℤ) + 1) :=
      mul_nonneg (by omega) (by omega)
    have hc0 : (0 : ℤ) ≤ (c : ℤ) := by omega
    linarith
  case ring.south j c =>
    exfalso
    unfold GVwf at hx
    have hj : (j : ℤ) ≤ (v : ℤ) - 2 := by omega
    have hc : (c : ℤ) < (h : ℤ) := by omega
    have hstep : ((h : ℤ) + 1) ≤ ((v : ℤ) - 1 - (j : ℤ)) * ((h : ℤ) + 1) := by
      have h1 : (1 : ℤ) ≤ (v : ℤ) - 1 - (j : ℤ) := by omega
      nlinarith
    have hexp : ((v : ℤ) - 1 - (j : ℤ)) * ((h : ℤ) + 1) =
        ((v : ℤ) - 1) * ((h : ℤ) + 1) - (j : ℤ) * ((h : ℤ) + 1) := by ring
    linarith
  case ring.ring j c j2 c2 =>
    unfold GVwf at hx hy
    have hnat : j * (h + 1) + c = j2 * (h + 1) + c2 := by
      have hz : (j : ℤ) * ((h : ℤ) + 1) + (c : ℤ) =
          (j2 : ℤ) * ((h : ℤ) + 1) + (c2 : ℤ) := by linarith
      exact_mod_cast hz
    have hmodc : (j * (h + 1) + c) % (h + 1) = c := by
      rw [Nat.mul_comm j (h + 1), Nat.mul_add_mod]
      exact Nat.mod_eq_of_lt (by omega)
    have hmodc2 : (j2 * (h + 1) + c2) % (h + 1) = c2 := by
      rw [Nat.mul_comm j2 (h + 1), Nat.mul_add_mod]
      exact Nat.mod_eq_of_lt (by omega)
    have hcc : c = c2 := by rw [← hmodc, ← hmodc2, hnat]
    have hjj : j = j2 := by
      have h2 := hnat
      rw [hcc] at h2
      have hmul : j * (h + 1) = j2 * (h + 1) := by omega
      exact Nat.eq_of_mul_eq_mul_right (by omega) hmul
    rw [hcc, hjj]

/-- Encoding a grid edge to the integer-index edge it denotes. -/
def encodeEdge (v h : ℕ) (e : GV × GV) : ℤ × ℤ :=
  (encodeGV v h e.1, encodeGV v h e.2)

theorem edgeList_map_encode (v h : ℕ) :
    edgeList ((gridTris v h).map (encodeTriangle v h)) =
      (gridEdges v h).map (encodeEdge v h) := by
  unfold edgeList gridEdges
  rw [List.flatMap_map, List.map_flatMap]
  rfl

theorem count_map_inj_on {α β : Type} [BEq α] [LawfulBEq α] [BEq β]
    [LawfulBEq β] (f : α → β) (a : α) :
    ∀ (l : List α), (∀ x ∈ l, f x = f a → x = a) →
      (l.map f).count (f a) = l.count a := by
  intro l
  induction l with
  | nil => intro _; rfl
  | cons b t ih =>
    intro hinj
    rw [List.map_cons, List.count_cons, List.count_cons,
      ih (fun x hx => hinj x (List.mem_cons_of_mem b hx))]
    by_cases hb : b = a
    · subst hb
      simp
    · have hfb : ¬ f b = f a := fun hc =>
        hb (hinj b (List.mem_cons_self b t) hc)
      have hab : ¬ a = b := fun hc => hb hc.symm
      have hfab : ¬ f a = f b := fun hc => hfb hc.symm
      simp [hb, hfb, hab, hfab]

theorem gridEdges_wf (v h : ℕ) (hh : 3 ≤ h) :
    ∀ e ∈ gridEdges v h, GVwf v h e.1 ∧ GVwf v h e.2 := by
  intro e he
  unfold gridEdges at he
  rw [List.mem_flatMap] at he
  obtain ⟨t, ht, het⟩ := he
  obtain ⟨-, hw1, hw2, hw3⟩ := gridTris_nondeg_wf v h hh t ht
  unfold gvEdges at het
  rcases List.mem_cons.mp het with rfl | het
  · exact ⟨hw1, hw2⟩
  rcases List.mem_cons.mp het with rfl | het
  · exact ⟨hw2, hw3⟩
  rcases List.mem_cons.mp het with rfl | het
  · exact ⟨hw3, hw1⟩
  cases het

theorem encoded_grid_closed (v h : ℕ) (hv : 2 ≤ v) (hh : 3 ≤ h) :
    isClosedMesh ((gridTris v h).map (encodeTriangle v h)) := by
  constructor
  · intro t' ht'
    rw [List.mem_map] at ht'
    obtain ⟨t, ht, rfl⟩ := ht'
    obtain ⟨⟨hd1, hd2, hd3⟩, hw1, hw2, hw3⟩ := gridTris_nondeg_wf v h hh t ht
    exact ⟨fun hc => hd1 (encodeGV_inj v h hv hh _ _ hw1 hw2 hc),
      fun hc => hd2 (encodeGV_inj v h hv hh _ _ hw2 hw3 hc),
      fun hc => hd3 (encodeGV_inj v h hv hh _ _ hw3 hw1 hc)⟩
  · intro e he
    rw [edgeList_map_encode] at he ⊢
    rw [List.mem_map] at he
    obtain ⟨p, hp, rfl⟩ := he
    have hw := gridEdges_wf v h hh p hp
    have hinj1 : ∀ x ∈ gridEdges v h,
        encodeEdge v h x = encodeEdge v h p → x = p := by
      intro x hx hfx
      have hwx := gridEdges_wf v h hh x hx
      unfold encodeEdge at hfx
      rw [Prod.mk.injEq] at hfx
      exact Prod.ext_iff.mpr
        ⟨encodeGV_inj v h hv hh _ _ hwx.1 hw.1 hfx.1,
         encodeGV_inj v h hv hh _ _ hwx.2 hw.2 hfx.2⟩
    have hGE : isGridEdge v h p := by
      have hpos : 0 < (gridEdges v h).count p := List.count_pos_iff.mpr hp
      by_contra hng
      rw [gridEdges_count v h hh p, if_neg hng] at hpos
      exact Nat.lt_irrefl 0 hpos
    constructor
    · have hc1 : (gridEdges v h).count p = 1 := by
        rw [gridEdges_count v h hh p, if_pos hGE]
      exact (count_map_inj_on (encodeEdge v h) p (gridEdges v h) hinj1).trans hc1
    · have hinj2 : ∀ x ∈ gridEdges v h,
          encodeEdge v h x = encodeEdge v h (p.2, p.1) → x = (p.2, p.1) := by
        intro x hx hfx
        have hwx := gridEdges_wf v h hh x hx
        unfold encodeEdge at hfx
        rw [Prod.mk.injEq] at hfx
        exact Prod.ext_iff.mpr
          ⟨encodeGV_inj v h hv hh _ _ hwx.1 hw.2 hfx.1,
           encodeGV_inj v h hv hh _ _ hwx.2 hw.1 hfx.2⟩
      have hGE2 : isGridEdge v h (p.2, p.1) :=
        isGridEdge_swap v h hh p.1 p.2 (by rw [Prod.mk.eta]; exact hGE)
      have hc2 : (gridEdges v h).count (p.2, p.1) = 1 := by
        rw [gridEdges_count v h hh (p.2, p.1), if_pos hGE2]
      exact (count_map_inj_on (encodeEdge v h) (p.2, p.1)
          (gridEdges v h) hinj2).trans hc2

theorem two_le_vsegsOf (segments : ℕ) : 2 ≤ vsegsOf segments := by
  unfold vsegsOf
  split <;> omega

theorem four_le_hsegsOf (segments : ℕ) : 4 ≤ hsegsOf segments := by
  unfold hsegsOf
  have := two_le_vsegsOf segments
  omega

/-- C1 (amended): for every radius and every segments whose vertex count
fits in `i32` (`nverts < 2^31`, i.e. `segments ≤ 32768` — beyond that the
source's `as i32` cast on line 147 wraps negative and `create_sphere`
panics at the bottom-pole write, line 161, so the embedding is only
faithful below the bound), after identifying each ring's duplicated seam
slot `1 + j*(hsegs+1) + hsegs` with that ring's column-0 index
`1 + j*(hsegs+1)` (the map `canonIndex`), the triangle list produced by
`create_sphere` is a closed 2-manifold: every triangle is nondegenerate,
and every directed edge occurs in exactly one triangle with its reverse
also occurring in exactly one triangle. -/
theorem closed_mesh_after_seam_identification (radius : ℝ) (segments : ℕ)
    (hfit : nvertsOf segments < 2 ^ 31) :
    isClosedMesh
      (((createSphere radius segments).2).map
        (canonTriangle (hsegsOf segments))) := by
  have hv : 2 ≤ vsegsOf segments := two_le_vsegsOf segments
  have hh : 3 ≤ hsegsOf segments := by
    have := four_le_hsegsOf segments
    omega
  have h1 : (createSphere radius segments).2 =
      sphereTrianglesCore (vsegsOf segments) (hsegsOf segments)
        ((nvertsOf segments : ℤ))
        (hsegsOf segments +
          (vsegsOf segments - 2) * hsegsOf segments * 2 +
          hsegsOf segments) := rfl
  rw [h1, sphereTrianglesCore_eq_closed]
  have h2 : ((nvertsOf segments : ℤ)) =
      ((1 + (vsegsOf segments - 1) * (hsegsOf segments + 1) + 1 : ℕ) : ℤ) :=
    rfl
  rw [h2, canon_triList (vsegsOf segments) (hsegsOf segments) hv (by omega)]
  exact encoded_grid_closed (vsegsOf segments) (hsegsOf segments) hv hh

/-- Witness for the amended C1 theorem at `radius = 1`, `segments = 2`:
the vertex count `nverts = 7` fits in `i32`, and the seam-identified
triangle list is a closed 2-manifold. -/
theorem closed_mesh_after_seam_identification_witness :
    nvertsOf 2 < 2 ^ 31 ∧
    isClosedMesh (((createSphere 1 2).2).map (canonTriangle (hsegsOf 2))) :=
  ⟨by decide, closed_mesh_after_seam_identification 1 2 (by decide)⟩
